import Mathlib

/-!
Verification of the vectorized delimited-text scanner of
`be/src/exec/delimited-text-parser.inline.h`: the pure mask correction
`ProcessEscapeMask`, the column emitter `DelimitedTextParser::AddColumn`, and
the vector scan loop `DelimitedTextParser::ParseSse`, shallowly embedded over
lists of bytes.  Pointers into the caller's buffer are modelled as integer
offsets; the 16-bit SSE masks are modelled as natural numbers with explicit
truncation mod 2^16 where the C code truncates; the pre-sized caller-owned
output arrays are modelled as append-only lists (writing at index
`num_fields` / `num_tuples` under the capacity precondition enforced by the
source's DCHECKs).
-/

/-- SSEUtil::CHARS_PER_128_BIT_REGISTER: the window width of one SSE compare. -/
def CHARS_PER_128_BIT_REGISTER : Nat := 16

/-- SSEUtil::SSE_BITMASK[i], the table of single-bit masks `1 << i`. -/
def SSE_BITMASK (i : Nat) : Nat := 1 <<< i

/-- The pair written through the out-parameters of `ProcessEscapeMask`:
the updated `*last_char_is_escape` carry and the corrected `*delim_mask`. -/
structure EscapeMaskOut where
  last_char_is_escape : Bool
  delim_mask : Nat
deriving DecidableEq, Repr

/-- State `(escape_mask, escape_next)` of the for-loop of `ProcessEscapeMask`
(source lines 14-20) after its first `k` iterations: at step `i`, if
`escape_next` is set the bit `i` of the mask is cleared (truncating to 16
bits, as the `uint16_t` assignment does), and `escape_next` becomes whether
bit `i` of the updated mask is set. -/
def escapeLoopTo (em0 : Nat) (c : Bool) : Nat → Nat × Bool
  | 0 => (em0, c)
  | k+1 =>
    let p := escapeLoopTo em0 c k
    let em := if p.2 then p.1 &&& (65535 ^^^ SSE_BITMASK k) else p.1
    (em, decide (em &&& SSE_BITMASK k ≠ 0))

/-- ProcessEscapeMask (source lines 10-32): clears escapes that are
themselves escaped (run-length parity, seeded by the incoming carry), updates
the carry to whether position 15 is still an active escape, shifts the
corrected mask up by one, ORs the incoming carry into bit 0 (both truncated
to 16 bits by the `uint16_t` assignment), and clears the delimiter-mask bits
selected by the shifted mask. -/
def ProcessEscapeMask (escape_mask : Nat) (last_char_is_escape : Bool)
    (delim_mask : Nat) : EscapeMaskOut :=
  let first_char_is_escape := last_char_is_escape
  let em := (escapeLoopTo escape_mask first_char_is_escape 16).1
  let last := decide (em &&& SSE_BITMASK 15 ≠ 0)
  let shifted := (em <<< 1 ||| (if first_char_is_escape then 1 else 0)) % 65536
  ⟨last, delim_mask &&& (65535 ^^^ shifted)⟩

/-- FieldLocation (declared in the parser header): start pointer and signed
length of one materialized field, the pointer modelled as an offset. -/
structure FieldLocation where
  start : Int
  len : Int
deriving DecidableEq, Repr

/-- Modelled from the spec: the configuration fixed for a parser instance —
the three single-byte delimiters, the optional escape character, the
partition-key count `scan_node_->num_partition_keys()`, and the
column-projection predicate `shouldMaterialize(columnIndex)` supplied by the
surrounding scan coordinator.  These are members of `DelimitedTextParser`
and its scan node, declared outside this file. -/
structure ParserConfig where
  field_delim_ : Nat
  collection_item_delim_ : Nat
  tuple_delim_ : Nat
  escape_char_ : Nat
  num_partition_keys : Nat
  is_materialized_col : Nat → Bool

/-- The state threaded through `ParseSse`: the parser members `column_idx_`,
`current_column_has_escape_` and `last_char_is_escape_`, and the in/out call
arguments (cursor, counters, output sequences, next-column-start pointer).
`materialized_cols` is ghost instrumentation recording the `column_idx_` of
every column written to `field_locations`, so that invariants about which
columns are ever recorded can be stated; it mirrors the writes and affects
nothing else. -/
structure ScanState where
  column_idx_ : Nat
  current_column_has_escape_ : Bool
  last_char_is_escape_ : Bool
  byte_buffer_ptr : Nat
  remaining_len : Int
  num_tuples : Nat
  num_fields : Nat
  row_end_locations : List Nat
  field_locations : List FieldLocation
  next_column_start : Int
  materialized_cols : List Nat
deriving DecidableEq, Repr

/-- Modelled from the spec: `ReturnCurrentColumn` (declared in the parser
header, outside this file) asks the externally supplied column-projection
decision whether the current `column_idx_` should be materialized. -/
def ReturnCurrentColumn (cfg : ParserConfig) (s : ScanState) : Bool :=
  cfg.is_materialized_col s.column_idx_

/-- DelimitedTextParser::AddColumn (source lines 34-51): if the current
column is to be returned, write `(next_column_start, len)` into the next
output slot — negating the length when escape processing is active and the
column was flagged escaped — and bump the field counter; reset the escape
flag when escape processing is active; advance `next_column_start` past the
delimiter and bump `column_idx_` unconditionally. -/
def AddColumn (process_escapes : Bool) (cfg : ParserConfig) (len : Int)
    (s : ScanState) : ScanState :=
  let s1 :=
    if ReturnCurrentColumn cfg s then
      { s with
        field_locations := s.field_locations ++
          [{ start := s.next_column_start,
             len := if process_escapes && s.current_column_has_escape_ then -len else len }],
        num_fields := s.num_fields + 1,
        materialized_cols := s.materialized_cols ++ [s.column_idx_] }
    else s
  let s2 := if process_escapes then { s1 with current_column_has_escape_ := false } else s1
  { s2 with
    next_column_start := s2.next_column_start + len + 1,
    column_idx_ := s2.column_idx_ + 1 }

/-- Byte at absolute offset `i` of the scanned buffer. -/
def byteAt (data : List Nat) (i : Nat) : Nat := data.getD i 0

/-- Modelled from the spec: the needle of the vectorized 3-character
membership search (`xmm_delim_search_`, loaded in the constructor outside
this file) holds the field, collection-item and tuple delimiters. -/
def isDelim (cfg : ParserConfig) (b : Nat) : Bool :=
  b == cfg.field_delim_ || b == cfg.collection_item_delim_ || b == cfg.tuple_delim_

/-- The 16-bit match mask produced by `_mm_cmpistrm` in STRCHR mode over the
16-byte window starting at `ptr`: bit `i` is set iff byte `ptr + i` matches
the needle predicate `p`. -/
def matchMask (data : List Nat) (ptr : Nat) (p : Nat → Bool) : Nat :=
  (List.range CHARS_PER_128_BIT_REGISTER).foldl
    (fun m i => if p (byteAt data (ptr + i)) then m ||| SSE_BITMASK i else m) 0

/-- Fuelled least-significant-set-bit computation. -/
def lsbAux : Nat → Nat → Nat
  | 0, _ => 0
  | fuel+1, m => if m % 2 = 1 then 0 else lsbAux fuel (m / 2) + 1

/-- `ffs(delim_mask) - 1` of source line 123: the index of the least
significant set bit of a non-zero 16-bit mask. -/
def lsbIdx (m : Nat) : Nat := lsbAux 16 m

/-- Modelled from the spec: the precomputed 16-entry table mapping a bit
position `i` to the mask of bits at or above `i` (the parser-header member
`low_mask_`, initialized outside this file), truncated to 16 bits. -/
def low_mask_ (i : Nat) : Nat := (65535 <<< i) % 65536

/-- Modelled from the spec: the precomputed 16-entry table mapping a bit
position `i` to the mask of bits at or below `i` (the parser-header member
`high_mask_`). -/
def high_mask_ (i : Nat) : Nat := 65535 >>> (15 - i)

/-- Source lines 129-134: mark the current column escaped if any
escape-character match occurred between the previously processed position
`last_col_idx` and the current position `n`, tested by intersecting the raw
escape mask with the two range-mask tables. -/
def markEscaped (escape_mask last_col_idx n : Nat) (s : ScanState) : ScanState :=
  let escaped := decide (escape_mask &&& low_mask_ last_col_idx &&& high_mask_ n ≠ 0)
  { s with current_column_has_escape_ := s.current_column_has_escape_ || escaped }

/-- One iteration of the inner mask walk of `ParseSse` (source lines
121-151) for the set bit at window position `n`: mark the column escaped if
escape processing is active, emit the column ending at `n` via `AddColumn`,
and on the tuple delimiter reset `column_idx_` to the partition-key count,
record the tuple end and, when `max_tuples` is reached, advance the cursor
and signal the early return (source line 148 adds `n + 1` to
`*remaining_len` at that point).  Returns the updated state, the updated
`last_col_idx`, and whether the early return fired. -/
def processDelimBit (process_escapes : Bool) (cfg : ParserConfig)
    (data : List Nat) (max_tuples : Nat) (escape_mask : Nat)
    (n last_col_idx : Nat) (s : ScanState) : ScanState × Nat × Bool :=
  let s0 := if process_escapes then markEscaped escape_mask last_col_idx n s else s
  let l' := if process_escapes then n else last_col_idx
  let delim_ptr := s0.byte_buffer_ptr + n
  let s1 := AddColumn process_escapes cfg ((delim_ptr : Int) - s0.next_column_start) s0
  if byteAt data delim_ptr = cfg.tuple_delim_ then
    let s2 := { s1 with
      column_idx_ := cfg.num_partition_keys,
      row_end_locations := s1.row_end_locations ++ [delim_ptr],
      num_tuples := s1.num_tuples + 1 }
    if s2.num_tuples = max_tuples then
      ({ s2 with
         byte_buffer_ptr := s2.byte_buffer_ptr + (n + 1),
         last_char_is_escape_ :=
           if process_escapes then false else s2.last_char_is_escape_,
         remaining_len := s2.remaining_len + (n + 1) }, l', true)
    else (s2, l', false)
  else (s1, l', false)

/-- The inner while loop of `ParseSse` (source lines 121-152): repeatedly
extract and clear the least significant set bit of `delim_mask` and process
it, stopping on the early return.  The fuel only bounds iteration; 16
iterations always suffice for a 16-bit mask. -/
def walkDelims (process_escapes : Bool) (cfg : ParserConfig) (data : List Nat)
    (max_tuples : Nat) (escape_mask : Nat) :
    Nat → Nat → Nat → ScanState → ScanState × Nat × Bool
  | 0, _, last_col_idx, s => (s, last_col_idx, false)
  | fuel+1, delim_mask, last_col_idx, s =>
    if delim_mask = 0 then (s, last_col_idx, false)
    else
      let n := lsbIdx delim_mask
      let dm := delim_mask &&& (65535 ^^^ SSE_BITMASK n)
      let r := processDelimBit process_escapes cfg data max_tuples escape_mask n last_col_idx s
      if r.2.2 then r
      else walkDelims process_escapes cfg data max_tuples escape_mask fuel dm r.2.1 r.1

/-- Source lines 154-158: after the mask walk, fold any escape-character
match between the last processed position and the window's end into the
next column's escape flag. -/
def foldTailEscape (process_escapes : Bool) (escape_mask last_col_idx : Nat)
    (s : ScanState) : ScanState :=
  if process_escapes then
    let unprocessed := decide (escape_mask &&& low_mask_ last_col_idx &&& high_mask_ 15 ≠ 0)
    { s with current_column_has_escape_ := s.current_column_has_escape_ || unprocessed }
  else s

/-- One iteration of the outer while loop of `ParseSse` (source lines
94-162): compute the delimiter and escape match masks for the 16-byte window
at `byte_buffer_ptr`, correct the delimiter mask when escape processing is
active, walk the set bits, fold the tail escape and advance the cursor by a
full window — or stop on the early `max_tuples` return. -/
def parseWindow (process_escapes : Bool) (cfg : ParserConfig) (data : List Nat)
    (max_tuples : Nat) (s : ScanState) : ScanState × Bool :=
  let delim_mask0 := matchMask data s.byte_buffer_ptr (isDelim cfg)
  let escape_mask :=
    if process_escapes then matchMask data s.byte_buffer_ptr (· == cfg.escape_char_) else 0
  let corrected :=
    if process_escapes then
      ProcessEscapeMask escape_mask s.last_char_is_escape_ delim_mask0
    else ⟨s.last_char_is_escape_, delim_mask0⟩
  let s0 := { s with last_char_is_escape_ := corrected.last_char_is_escape }
  let r := walkDelims process_escapes cfg data max_tuples escape_mask
    CHARS_PER_128_BIT_REGISTER corrected.delim_mask 0 s0
  if r.2.2 then (r.1, true)
  else
    let s1 := foldTailEscape process_escapes escape_mask r.2.1 r.1
    ({ s1 with
       remaining_len := s1.remaining_len - (CHARS_PER_128_BIT_REGISTER : Int),
       byte_buffer_ptr := s1.byte_buffer_ptr + CHARS_PER_128_BIT_REGISTER }, false)

/-- The outer while loop of `ParseSse`, fuelled: run windows while at least
one full window of input remains, stopping on the early return. -/
def ParseSseLoop (process_escapes : Bool) (cfg : ParserConfig) (data : List Nat)
    (max_tuples : Nat) : Nat → ScanState → ScanState
  | 0, s => s
  | fuel+1, s =>
    if (CHARS_PER_128_BIT_REGISTER : Int) ≤ s.remaining_len then
      let r := parseWindow process_escapes cfg data max_tuples s
      if r.2 then r.1 else ParseSseLoop process_escapes cfg data max_tuples fuel r.1
    else s

/-- DelimitedTextParser::ParseSse (source lines 66-163).  Every iteration of
the outer loop requires `remaining_len ≥ 16` and, when it does not return,
decreases `remaining_len` by 16, so `remaining_len.toNat` units of fuel are
always sufficient. -/
def ParseSse (process_escapes : Bool) (cfg : ParserConfig) (data : List Nat)
    (max_tuples : Nat) (s : ScanState) : ScanState :=
  ParseSseLoop process_escapes cfg data max_tuples s.remaining_len.toNat s

/-- Add `b` bytes of newly arrived input to the cursor's remaining length —
how a caller presents the next chunk of the logical stream. -/
def addRem (b : Int) (s : ScanState) : ScanState :=
  { s with remaining_len := s.remaining_len + b }

/-- Scan a logical stream presented as successive chunks: each chunk's byte
count is added to the remaining length and the vector scan loop is invoked
again, with all parser state threaded through unchanged. -/
def scanChunks (process_escapes : Bool) (cfg : ParserConfig) (data : List Nat)
    (chunks : List Int) (s : ScanState) : ScanState :=
  chunks.foldl (fun t c => ParseSse process_escapes cfg data 0 (addRem c t)) s

/-- Specification-side recursive characterization of the parity-corrected
escape mask: position `i` is an active escape iff it matches the escape
character and the preceding position (the incoming carry for `i = 0`) is not
itself an active escape. -/
def escActive (em : Nat) (c : Bool) : Nat → Bool
  | 0 => em.testBit 0 && !c
  | i+1 => em.testBit (i+1) && !(escActive em c i)

/-- The active-escape state of the position just below `s`: the incoming
carry for `s = 0`, otherwise `escActive` at `s - 1`. -/
def prevEsc (em : Nat) (c : Bool) : Nat → Bool
  | 0 => c
  | s+1 => escActive em c s

/-- Concrete configuration used by the concrete executions below: field
delimiter comma, tuple delimiter newline, collection-item delimiter 1,
escape character backslash, no partition keys, all columns materialized. -/
def cfgEx : ParserConfig :=
  { field_delim_ := 44, collection_item_delim_ := 1, tuple_delim_ := 10,
    escape_char_ := 92, num_partition_keys := 0,
    is_materialized_col := fun _ => true }

/-- A fresh scan state over a buffer of `rem` remaining bytes starting at
offset 0. -/
def initState (rem : Int) : ScanState :=
  { column_idx_ := 0, current_column_has_escape_ := false,
    last_char_is_escape_ := false, byte_buffer_ptr := 0,
    remaining_len := rem, num_tuples := 0, num_fields := 0,
    row_end_locations := [], field_locations := [],
    next_column_start := 0, materialized_cols := [] }

/-- 16 bytes of input with the tuple delimiter (newline) at offset 2. -/
def dataEarly : List Nat :=
  [97, 98, 10, 99, 99, 99, 99, 99, 99, 99, 99, 99, 99, 99, 99, 99]

/-- 20 bytes of input with tuple delimiters at offsets 2 and 17. -/
def dataChunk : List Nat :=
  [97, 98, 10, 99, 99, 99, 99, 99, 99, 99, 99, 99, 99, 99, 99, 99, 99, 10, 99, 99]

/-- C9: for every escape mask, carry and delimiter mask, the corrected
delimiter mask produced by `ProcessEscapeMask` is a bitwise subset of the
input delimiter mask — the correction only clears bits, it never introduces
a delimiter position that was not matched in the input. -/
theorem processEscapeMask_delim_subset (e : Nat) (c : Bool) (d : Nat) (i : Nat)
    (h : (ProcessEscapeMask e c d).delim_mask.testBit i = true) :
    d.testBit i = true := by
  have h' := h
  unfold ProcessEscapeMask at h'
  simp only [Nat.testBit_and, Bool.and_eq_true] at h'
  exact h'.1

/-- Witness for C9 at a concrete input: bit 0 of the corrected mask is set
for escape mask 0, carry false, delimiter mask 1, so bit 0 of the input is. -/
theorem processEscapeMask_delim_subset_witness :
    ((ProcessEscapeMask 0 false 1).delim_mask.testBit 0 = true) ∧ (1 : Nat).testBit 0 = true :=
  ⟨by decide, processEscapeMask_delim_subset 0 false 1 0 (by decide)⟩

/-- C10: two calls to `ProcessEscapeMask` that agree on the escape mask and
the incoming carry produce the same updated carry whatever their delimiter
masks: the cross-window escape carry does not depend on the delimiter mask. -/
theorem processEscapeMask_carry_independent_of_delim (e : Nat) (c : Bool)
    (d₁ d₂ : Nat) :
    (ProcessEscapeMask e c d₁).last_char_is_escape =
      (ProcessEscapeMask e c d₂).last_char_is_escape := rfl

theorem sse_bitmask_two_pow (i : Nat) : SSE_BITMASK i = 2 ^ i := by
  simp [SSE_BITMASK, Nat.shiftLeft_eq]

theorem and_bitmask_ne_zero_eq (m i : Nat) :
    decide (m &&& SSE_BITMASK i ≠ 0) = m.testBit i := by
  rw [sse_bitmask_two_pow]
  by_cases h : m.testBit i = true
  · have hbit : (m &&& 2 ^ i).testBit i = true := by
      simp [Nat.testBit_and, h, Nat.testBit_two_pow_self]
    have hne : m &&& 2 ^ i ≠ 0 := by
      intro h0
      rw [h0] at hbit
      simp at hbit
    simp [hne, h]
  · have hf : m.testBit i = false := by simpa using h
    have hz : m &&& 2 ^ i = 0 := by
      apply Nat.eq_of_testBit_eq
      intro j
      simp only [Nat.testBit_and, Nat.zero_testBit]
      rcases eq_or_ne j i with rfl | hji
      · simp [hf]
      · simp [Nat.testBit_two_pow_of_ne (Ne.symm hji)]
    simp [hz, hf]

theorem testBit_clear_bit (m i j : Nat) (hi : i < 16) :
    (m &&& (65535 ^^^ SSE_BITMASK i)).testBit j =
      (m.testBit j && decide (j < 16) && !(decide (i = j))) := by
  have h65535 : (65535 : Nat) = 2 ^ 16 - 1 := by norm_num
  rw [sse_bitmask_two_pow, h65535, Nat.testBit_and, Nat.testBit_xor,
    Nat.testBit_two_pow_sub_one, Nat.testBit_two_pow]
  rcases Nat.lt_or_ge j 16 with hj | hj
  · by_cases hij : i = j
    · subst hij
      simp [hj]
    · simp [hj, hij]
  · have hij : ¬ (i = j) := by omega
    have hj' : ¬ (j < 16) := by omega
    simp [hij, hj']

theorem escActive_eq (em : Nat) (c : Bool) (k : Nat) :
    escActive em c k = (em.testBit k && !(prevEsc em c k)) := by
  cases k <;> rfl

theorem escActive_of_bit_false {em : Nat} {c : Bool} {t : Nat}
    (h : em.testBit t = false) : escActive em c t = false := by
  rw [escActive_eq, h, Bool.false_and]

theorem escapeLoopTo_succ (em0 : Nat) (c : Bool) (k : Nat) :
    escapeLoopTo em0 c (k+1) =
      ((if (escapeLoopTo em0 c k).2 then
          (escapeLoopTo em0 c k).1 &&& (65535 ^^^ SSE_BITMASK k)
        else (escapeLoopTo em0 c k).1),
       decide ((if (escapeLoopTo em0 c k).2 then
            (escapeLoopTo em0 c k).1 &&& (65535 ^^^ SSE_BITMASK k)
          else (escapeLoopTo em0 c k).1) &&& SSE_BITMASK k ≠ 0)) := rfl

theorem escapeLoopTo_spec (em : Nat) (c : Bool) (hem : em < 65536) :
    ∀ k, k ≤ 16 →
      (escapeLoopTo em c k).1 < 65536 ∧
      (∀ j, j < k → (escapeLoopTo em c k).1.testBit j = escActive em c j) ∧
      (∀ j, k ≤ j → (escapeLoopTo em c k).1.testBit j = em.testBit j) ∧
      (escapeLoopTo em c k).2 = prevEsc em c k := by
  intro k
  induction k with
  | zero => exact fun _ => ⟨hem, fun j hj => absurd hj (Nat.not_lt_zero j), fun j _ => rfl, rfl⟩
  | succ k ih =>
    intro hk16
    obtain ⟨hlt, hbelow, habove, hsnd⟩ := ih (by omega)
    have hk15 : k < 16 := by omega
    cases hP : (escapeLoopTo em c k).2 with
    | true =>
      have hPb : prevEsc em c k = true := by rw [← hsnd]; exact hP
      have hstep : escapeLoopTo em c (k+1) =
          ((escapeLoopTo em c k).1 &&& (65535 ^^^ SSE_BITMASK k),
           decide ((escapeLoopTo em c k).1 &&& (65535 ^^^ SSE_BITMASK k) &&& SSE_BITMASK k ≠ 0)) := by
        rw [escapeLoopTo_succ, hP]
        simp
      rw [hstep]
      refine ⟨Nat.lt_of_le_of_lt Nat.and_le_left hlt, ?_, ?_, ?_⟩
      · intro j hj
        rw [testBit_clear_bit _ _ _ hk15]
        rcases Nat.lt_or_ge j k with hjk | hjk
        · have hj16 : j < 16 := by omega
          have hjne : ¬ (k = j) := by omega
          simp [hj16, hjne, hbelow j hjk]
        · have hjk' : j = k := by omega
          rw [hjk', escActive_eq em c k, hPb]
          simp
      · intro j hj
        rw [testBit_clear_bit _ _ _ hk15]
        rcases Nat.lt_or_ge j 16 with hj16 | hj16
        · have hjne : ¬ (k = j) := by omega
          simp [hj16, hjne, habove j (by omega)]
        · have h1 : em.testBit j = false := by
            apply Nat.testBit_lt_two_pow
            calc em < 65536 := hem
              _ = 2 ^ 16 := by norm_num
              _ ≤ 2 ^ j := Nat.pow_le_pow_right (by omega) hj16
          have h2 : ¬ (j < 16) := by omega
          simp [h1, h2]
      · rw [and_bitmask_ne_zero_eq, testBit_clear_bit _ _ _ hk15]
        have hp1 : prevEsc em c (k+1) = escActive em c k := rfl
        rw [hp1, escActive_eq em c k, hPb]
        simp
    | false =>
      have hPb : prevEsc em c k = false := by rw [← hsnd]; exact hP
      have hstep : escapeLoopTo em c (k+1) =
          ((escapeLoopTo em c k).1,
           decide ((escapeLoopTo em c k).1 &&& SSE_BITMASK k ≠ 0)) := by
        rw [escapeLoopTo_succ, hP]
        simp
      rw [hstep]
      refine ⟨hlt, ?_, fun j hj => habove j (by omega), ?_⟩
      · intro j hj
        rcases Nat.lt_or_ge j k with hjk | hjk
        · exact hbelow j hjk
        · have hjk' : j = k := by omega
          rw [hjk', habove k (le_refl k), escActive_eq em c k, hPb]
          simp
      · rw [and_bitmask_ne_zero_eq, habove k (le_refl k)]
        have hp1 : prevEsc em c (k+1) = escActive em c k := rfl
        rw [hp1, escActive_eq em c k, hPb]
        simp

theorem correctedMask_testBit (em : Nat) (c : Bool) (hem : em < 65536)
    (j : Nat) (hj : j < 16) :
    (escapeLoopTo em c 16).1.testBit j = escActive em c j :=
  (escapeLoopTo_spec em c hem 16 le_rfl).2.1 j hj

theorem processEscapeMask_carry (em : Nat) (c : Bool) (d : Nat) (hem : em < 65536) :
    (ProcessEscapeMask em c d).last_char_is_escape = escActive em c 15 := by
  show decide ((escapeLoopTo em c 16).1 &&& SSE_BITMASK 15 ≠ 0) = escActive em c 15
  rw [and_bitmask_ne_zero_eq]
  exact correctedMask_testBit em c hem 15 (by omega)

theorem processEscapeMask_delim_testBit (em : Nat) (c : Bool) (d : Nat)
    (hem : em < 65536) (j : Nat) (hj : j < 16) :
    (ProcessEscapeMask em c d).delim_mask.testBit j =
      (d.testBit j && !(if j = 0 then c else escActive em c (j - 1))) := by
  have h65536 : (65536 : Nat) = 2 ^ 16 := by norm_num
  have h65535 : (65535 : Nat) = 2 ^ 16 - 1 := by norm_num
  show (d &&& (65535 ^^^ ((escapeLoopTo em c 16).1 <<< 1 |||
      (if c then 1 else 0)) % 65536)).testBit j = _
  rw [Nat.testBit_and, Nat.testBit_xor, h65535, Nat.testBit_two_pow_sub_one,
    h65536, Nat.testBit_mod_two_pow, Nat.testBit_or, Nat.testBit_shiftLeft]
  have hcb : (if c then (1 : Nat) else 0).testBit j = (c && decide (j = 0)) := by
    cases c with
    | false => simp
    | true =>
      have h1 : (1 : Nat) = 2 ^ 0 := rfl
      rw [if_pos rfl, h1, Nat.testBit_two_pow]
      by_cases hj0 : j = 0
      · subst hj0
        simp
      · simp [hj0, Ne.symm hj0]
  rw [hcb]
  cases j with
  | zero =>
    have h016 : decide (0 < 16) = true := by decide
    have h01 : decide ((0 : Nat) ≥ 1) = false := by decide
    have h00 : decide ((0 : Nat) = 0) = true := by decide
    have hif : (if (0 : Nat) = 0 then c else escActive em c (0 - 1)) = c := if_pos rfl
    rw [h016, h01, h00, hif]
    cases c <;>
      simp only [Bool.false_and, Bool.true_and, Bool.and_true, Bool.and_false,
        Bool.false_or, Bool.or_false, Bool.or_true, Bool.true_or, Bool.true_xor,
        Bool.not_true, Bool.not_false]
  | succ j' =>
    have hj' : j' < 16 := by omega
    have hsub : j' + 1 - 1 = j' := rfl
    rw [hsub, correctedMask_testBit em c hem j' hj']
    have hge : decide (j' + 1 ≥ 1) = true := by simp
    have hne0 : decide (j' + 1 = 0) = false := by simp
    have hlt16 : decide (j' + 1 < 16) = true := by simpa using hj
    have hif : (if j' + 1 = 0 then c else escActive em c j') = escActive em c j' :=
      if_neg (Nat.succ_ne_zero j')
    rw [hge, hne0, hlt16, hif]
    simp only [Bool.true_and, Bool.and_false, Bool.or_false, Bool.true_xor]

/-- C4: for every 16-bit escape mask, incoming carry and delimiter mask,
`ProcessEscapeMask` sets the outgoing carry to whether bit 15 of the escape
mask is still set after parity correction (`escActive`, which by
`correctedMask_testBit` is exactly the bit content of the corrected mask),
and the corrected delimiter mask keeps exactly the input delimiter bits whose
corresponding bit of the shifted corrected escape mask — the parity-corrected
mask shifted up one with the incoming carry ORed into bit 0 — is clear. -/
theorem processEscapeMask_mask_semantics (em : Nat) (c : Bool) (d : Nat)
    (hem : em < 65536) :
    (ProcessEscapeMask em c d).last_char_is_escape = escActive em c 15 ∧
    (∀ j, j < 16 → (ProcessEscapeMask em c d).delim_mask.testBit j =
      (d.testBit j && !(if j = 0 then c else escActive em c (j - 1)))) :=
  ⟨processEscapeMask_carry em c d hem,
   fun j hj => processEscapeMask_delim_testBit em c d hem j hj⟩

/-- Witness for C4 at a concrete input: escape mask `0b10` (an escape at
position 1), carry false, delimiter mask `0b100` (a delimiter at position 2,
which is escaped, so cleared). -/
theorem processEscapeMask_mask_semantics_witness :
    (2 : Nat) < 65536 ∧
    ((ProcessEscapeMask 2 false 4).last_char_is_escape = escActive 2 false 15 ∧
     (∀ j, j < 16 → (ProcessEscapeMask 2 false 4).delim_mask.testBit j =
       ((4 : Nat).testBit j && !(if j = 0 then false else escActive 2 false (j - 1))))) :=
  ⟨by decide, processEscapeMask_mask_semantics 2 false 4 (by decide)⟩

theorem decide_mod_two_succ_one (m : Nat) :
    decide ((m + 1) % 2 = 1) = !decide (m % 2 = 1) := by
  rcases Nat.mod_two_eq_zero_or_one m with h | h <;> simp [Nat.add_mod, h]

theorem decide_mod_two_succ_zero (m : Nat) :
    decide ((m + 1) % 2 = 0) = !decide (m % 2 = 0) := by
  rcases Nat.mod_two_eq_zero_or_one m with h | h <;> simp [Nat.add_mod, h]

theorem escActive_run (em : Nat) (c : Bool) (s : Nat) :
    ∀ m, (∀ i, i ≤ m → em.testBit (s + i) = true) →
      escActive em c (s + m) =
        (if prevEsc em c s then decide (m % 2 = 1) else decide (m % 2 = 0)) := by
  intro m
  induction m with
  | zero =>
    intro hbits
    have h0 : em.testBit s = true := by
      have := hbits 0 (le_refl 0)
      rwa [Nat.add_zero] at this
    rw [Nat.add_zero, escActive_eq em c s, h0]
    cases hP : prevEsc em c s <;> simp [hP]
  | succ m ih =>
    intro hbits
    have hstep : em.testBit (s + (m + 1)) = true := hbits (m + 1) (le_refl _)
    have hesc := ih (fun i hi => hbits i (by omega))
    have hx : s + (m + 1) = (s + m) + 1 := by omega
    have hact : escActive em c ((s + m) + 1) =
        (em.testBit ((s + m) + 1) && !(escActive em c (s + m))) := rfl
    rw [hx, hact, ← hx, hstep, hesc]
    cases hP : prevEsc em c s <;>
      simp [hP, decide_mod_two_succ_one, decide_mod_two_succ_zero]

/-- C3: a delimiter immediately preceded by a maximal run of k consecutive
escape characters has its delimiter-mask bit cleared iff k is odd — both
when the run lies inside one window (first conjunct: run at positions
p-k .. p-1, delimiter at p, with the position below the run not an escape,
or the incoming carry false when the run starts at position 0), and when a
run of a + j escape characters straddles the window boundary (second
conjunct: the last a positions of the first window and the first j
positions of the second, delimiter at position j of the second window),
parity being carried only through the carry boolean produced by the first
window's `ProcessEscapeMask`. -/
theorem escape_run_parity :
    (∀ (em : Nat) (c : Bool) (d p k : Nat),
       em < 65536 → p < 16 → k ≤ p →
       (∀ i, p - k ≤ i → i < p → em.testBit i = true) →
       (k < p → em.testBit (p - k - 1) = false) →
       (k = p → c = false) →
       d.testBit p = true →
       (((ProcessEscapeMask em c d).delim_mask.testBit p = false) ↔ k % 2 = 1)) ∧
    (∀ (em₁ em₂ : Nat) (c₁ : Bool) (d₁ d₂ a j : Nat),
       em₁ < 65536 → em₂ < 65536 →
       1 ≤ a → a ≤ 15 →
       (∀ i, 16 - a ≤ i → i ≤ 15 → em₁.testBit i = true) →
       em₁.testBit (15 - a) = false →
       j < 16 →
       (∀ i, i < j → em₂.testBit i = true) →
       d₂.testBit j = true →
       (((ProcessEscapeMask em₂ (ProcessEscapeMask em₁ c₁ d₁).last_char_is_escape
           d₂).delim_mask.testBit j = false) ↔ (a + j) % 2 = 1)) := by
  constructor
  · intro em c d p k hem hp hkp hrun hmax hc0 hdp
    rw [processEscapeMask_delim_testBit em c d hem p hp, hdp, Bool.true_and]
    cases p with
    | zero =>
      have hk : k = 0 := by omega
      subst hk
      rw [if_pos rfl, hc0 rfl]
      simp
    | succ p' =>
      rw [if_neg (Nat.succ_ne_zero p')]
      have hsub : p' + 1 - 1 = p' := rfl
      rw [hsub]
      by_cases hk0 : k = 0
      · subst hk0
        have hbit : em.testBit p' = false := by
          have := hmax (by omega)
          have hidx : p' + 1 - 0 - 1 = p' := by omega
          rwa [hidx] at this
        rw [escActive_of_bit_false hbit]
        simp
      · have hs : (p' + 1 - k) + (k - 1) = p' := by omega
        have hbits : ∀ i, i ≤ k - 1 → em.testBit ((p' + 1 - k) + i) = true := by
          intro i hi
          exact hrun _ (by omega) (by omega)
        have hprev : prevEsc em c (p' + 1 - k) = false := by
          rcases Nat.eq_zero_or_pos (p' + 1 - k) with hz | hpos
          · rw [hz]
            show c = false
            exact hc0 (by omega)
          · have hs' : p' + 1 - k = (p' + 1 - k - 1) + 1 := by omega
            rw [hs']
            show escActive em c (p' + 1 - k - 1) = false
            exact escActive_of_bit_false (hmax (by omega))
        have hX := escActive_run em c (p' + 1 - k) (k - 1) hbits
        rw [hs, hprev] at hX
        rw [hX]
        rcases Nat.mod_two_eq_zero_or_one (k - 1) with hpar | hpar <;>
          simp [hpar] <;> omega
  · intro em₁ em₂ c₁ d₁ d₂ a j hem₁ hem₂ ha1 ha15 hrun₁ hmax₁ hj16 hrun₂ hd₂
    have hcarry : (ProcessEscapeMask em₁ c₁ d₁).last_char_is_escape =
        decide (a % 2 = 1) := by
      rw [processEscapeMask_carry em₁ c₁ d₁ hem₁]
      have hsm : (16 - a) + (a - 1) = 15 := by omega
      have hbits : ∀ i, i ≤ a - 1 → em₁.testBit ((16 - a) + i) = true := by
        intro i hi
        exact hrun₁ _ (by omega) (by omega)
      have hprev : prevEsc em₁ c₁ (16 - a) = false := by
        have hs : 16 - a = (15 - a) + 1 := by omega
        rw [hs]
        show escActive em₁ c₁ (15 - a) = false
        exact escActive_of_bit_false hmax₁
      have hX := escActive_run em₁ c₁ (16 - a) (a - 1) hbits
      rw [hsm, hprev] at hX
      rw [hX]
      rcases Nat.mod_two_eq_zero_or_one (a - 1) with hpar | hpar <;>
        simp [hpar] <;> omega
    rw [processEscapeMask_delim_testBit em₂ _ d₂ hem₂ j hj16, hd₂, Bool.true_and]
    cases j with
    | zero =>
      rw [if_pos rfl, hcarry]
      rcases Nat.mod_two_eq_zero_or_one a with h | h <;> simp [h] <;> omega
    | succ j' =>
      rw [if_neg (Nat.succ_ne_zero j')]
      have hsub : j' + 1 - 1 = j' := rfl
      rw [hsub, hcarry]
      have hbits₂ : ∀ i, i ≤ j' → em₂.testBit (0 + i) = true := by
        intro i hi
        have := hrun₂ i (by omega)
        simpa using this
      have hX := escActive_run em₂ (decide (a % 2 = 1)) 0 j' hbits₂
      rw [Nat.zero_add] at hX
      have hprev0 : prevEsc em₂ (decide (a % 2 = 1)) 0 = decide (a % 2 = 1) := rfl
      rw [hX, hprev0]
      rcases Nat.mod_two_eq_zero_or_one a with ha | ha <;>
        rcases Nat.mod_two_eq_zero_or_one j' with hj | hj <;>
          simp [ha, hj, Nat.add_mod] <;> omega

/-- Witness for C3 at concrete inputs: a run of two escapes (positions 1-2)
before a delimiter at position 3 does not escape it (even parity), and a
single escape at position 15 of one window escapes a delimiter at position 0
of the next window through the carry (odd parity). -/
theorem escape_run_parity_witness :
    (((ProcessEscapeMask 6 false 8).delim_mask.testBit 3 = false) ↔ 2 % 2 = 1) ∧
    (((ProcessEscapeMask 0 (ProcessEscapeMask 32768 false 0).last_char_is_escape
        1).delim_mask.testBit 0 = false) ↔ (1 + 0) % 2 = 1) :=
  ⟨escape_run_parity.1 6 false 8 3 2 (by decide) (by decide) (by decide)
     (by intro i h1 h2
         have hi : i = 1 ∨ i = 2 := by omega
         rcases hi with rfl | rfl <;> decide)
     (by decide) (by decide) (by decide),
   escape_run_parity.2 32768 0 false 0 1 1 0 (by decide) (by decide) (by decide)
     (by decide)
     (by intro i h1 h2
         have hi : i = 15 := by omega
         subst hi
         decide)
     (by decide) (by decide)
     (fun i h => absurd h (Nat.not_lt_zero i))
     (by decide)⟩

theorem testBit_low_mask (i j : Nat) :
    (low_mask_ i).testBit j = (decide (i ≤ j) && decide (j < 16)) := by
  unfold low_mask_
  have h65536 : (65536 : Nat) = 2 ^ 16 := by norm_num
  have h65535 : (65535 : Nat) = 2 ^ 16 - 1 := by norm_num
  rw [h65536, Nat.testBit_mod_two_pow, Nat.testBit_shiftLeft, h65535,
    Nat.testBit_two_pow_sub_one]
  by_cases h1 : i ≤ j
  · by_cases h2 : j < 16
    · have h3 : j - i < 16 := by omega
      simp [h1, h2, h3]
    · simp [h1, h2]
  · simp [h1]

theorem testBit_high_mask (i j : Nat) (hi : i ≤ 15) :
    (high_mask_ i).testBit j = decide (j ≤ i) := by
  unfold high_mask_
  have h65535 : (65535 : Nat) = 2 ^ 16 - 1 := by norm_num
  rw [Nat.testBit_shiftRight, h65535, Nat.testBit_two_pow_sub_one]
  by_cases h : j ≤ i
  · have h2 : 15 - i + j < 16 := by omega
    simp [h, h2]
  · have h2 : ¬ (15 - i + j < 16) := by omega
    simp [h, h2]

theorem bit_interval_test (em l n : Nat) (hn : n ≤ 15) :
    em &&& low_mask_ l &&& high_mask_ n ≠ 0 ↔
      ∃ i, l ≤ i ∧ i ≤ n ∧ em.testBit i = true := by
  constructor
  · intro h
    obtain ⟨i, hi⟩ := Nat.ne_zero_implies_bit_true h
    rw [Nat.testBit_and, Nat.testBit_and, testBit_low_mask, testBit_high_mask n i hn] at hi
    simp only [Bool.and_eq_true, decide_eq_true_eq] at hi
    exact ⟨i, hi.1.2.1, hi.2, hi.1.1⟩
  · rintro ⟨i, h1, h2, h3⟩
    intro h0
    have hbit : (em &&& low_mask_ l &&& high_mask_ n).testBit i = true := by
      rw [Nat.testBit_and, Nat.testBit_and, testBit_low_mask, testBit_high_mask n i hn]
      have h4 : i < 16 := by omega
      simp [h1, h2, h3, h4]
    rw [h0] at hbit
    simp at hbit

/-- C8: with escape processing active, the step at delimiter position `n`
marks the current column escaped exactly when some escape-match bit lies
strictly between the previously processed position and `n` (the test through
the two lookup tables intersected with the escape mask), and the post-loop
fold sets the next column's escape flag exactly when an escape match lies in
the tail strictly after the last processed position through the window's
end — given that, as at every reachable call site, the two processed
positions hold delimiter bytes and hence are not escape matches. -/
theorem escaped_column_detection :
    (∀ (em l n : Nat) (s : ScanState), n < 16 →
       em.testBit l = false → em.testBit n = false →
       ((markEscaped em l n s).current_column_has_escape_ = true ↔
         (s.current_column_has_escape_ = true ∨
           ∃ i, l < i ∧ i < n ∧ em.testBit i = true))) ∧
    (∀ (em l : Nat) (s : ScanState), em.testBit l = false →
       ((foldTailEscape true em l s).current_column_has_escape_ = true ↔
         (s.current_column_has_escape_ = true ∨
           ∃ i, l < i ∧ i ≤ 15 ∧ em.testBit i = true))) := by
  constructor
  · intro em l n s hn hl hnn
    show (s.current_column_has_escape_ ||
        decide (em &&& low_mask_ l &&& high_mask_ n ≠ 0)) = true ↔ _
    rw [Bool.or_eq_true, decide_eq_true_eq, bit_interval_test em l n (by omega)]
    apply or_congr_right
    constructor
    · rintro ⟨i, h1, h2, h3⟩
      have hil : i ≠ l := by
        intro he
        rw [he, hl] at h3
        exact Bool.false_ne_true h3
      have hin : i ≠ n := by
        intro he
        rw [he, hnn] at h3
        exact Bool.false_ne_true h3
      exact ⟨i, by omega, by omega, h3⟩
    · rintro ⟨i, h1, h2, h3⟩
      exact ⟨i, by omega, by omega, h3⟩
  · intro em l s hl
    show (s.current_column_has_escape_ ||
        decide (em &&& low_mask_ l &&& high_mask_ 15 ≠ 0)) = true ↔ _
    rw [Bool.or_eq_true, decide_eq_true_eq, bit_interval_test em l 15 le_rfl]
    apply or_congr_right
    constructor
    · rintro ⟨i, h1, h2, h3⟩
      have hil : i ≠ l := by
        intro he
        rw [he, hl] at h3
        exact Bool.false_ne_true h3
      exact ⟨i, by omega, h2, h3⟩
    · rintro ⟨i, h1, h2, h3⟩
      exact ⟨i, by omega, h2, h3⟩

/-- Witness for C8 at concrete inputs: with an escape match at position 1
only, the step for a delimiter at position 2 after last processed position 0
marks the column escaped, and the tail fold from position 2 onward finds no
match. -/
theorem escaped_column_detection_witness :
    ((markEscaped 2 0 2 (initState 0)).current_column_has_escape_ = true ↔
      ((initState 0).current_column_has_escape_ = true ∨
        ∃ i, 0 < i ∧ i < 2 ∧ (2 : Nat).testBit i = true)) ∧
    ((foldTailEscape true 2 2 (initState 0)).current_column_has_escape_ = true ↔
      ((initState 0).current_column_has_escape_ = true ∨
        ∃ i, 2 < i ∧ i ≤ 15 ∧ (2 : Nat).testBit i = true)) :=
  ⟨escaped_column_detection.1 2 0 2 (initState 0) (by decide) (by decide) (by decide),
   escaped_column_detection.2 2 2 (initState 0) (by decide)⟩

/-- C7 (amended): full characterization of `AddColumn` — when the column is
materialized, `(next_column_start, len)` is written to the next output slot
with the length negated exactly when escape processing is active and the
column was flagged escaped, and the field counter is incremented; whether or
not the column is materialized, `next_column_start` advances by `len + 1`,
`column_idx_` is incremented, and the per-column escape flag is reset
exactly when escape processing is active (left unchanged otherwise). -/
theorem addColumn_characterization (pe : Bool) (cfg : ParserConfig) (len : Int)
    (s : ScanState) :
    (AddColumn pe cfg len s).field_locations =
      (if ReturnCurrentColumn cfg s then
         s.field_locations ++
           [{ start := s.next_column_start,
              len := if pe && s.current_column_has_escape_ then -len else len }]
       else s.field_locations) ∧
    (AddColumn pe cfg len s).num_fields =
      (if ReturnCurrentColumn cfg s then s.num_fields + 1 else s.num_fields) ∧
    (AddColumn pe cfg len s).current_column_has_escape_ =
      (if pe then false else s.current_column_has_escape_) ∧
    (AddColumn pe cfg len s).next_column_start = s.next_column_start + len + 1 ∧
    (AddColumn pe cfg len s).column_idx_ = s.column_idx_ + 1 := by
  unfold AddColumn
  cases hR : ReturnCurrentColumn cfg s <;> cases pe <;> simp [hR]

/-- A scan state whose per-column escape flag is set. -/
def sFlagged : ScanState :=
  { initState 0 with current_column_has_escape_ := true }

/-- Counterexample to C7 as stated: in a call to `AddColumn` with escape
processing inactive and the per-column escape flag set, the flag is not
reset (the reset at source line 48 is guarded by `process_escapes`). -/
theorem addColumn_no_reset_counterexample :
    ¬ ((AddColumn false cfgEx 1 sFlagged).current_column_has_escape_ = false) := by
  decide

/-- C1 (code bug, source line 148): evaluation of `ParseSse` at the failing
input.  On the 16-byte buffer `dataEarly` (tuple delimiter at offset 2) with
`max_tuples = 1` and 16 bytes remaining, the early exit advances the pointer
by n + 1 = 3 and records one tuple end, but executes
`*remaining_len += (n + 1)`, leaving `remaining_len = 19` instead of the 13
that advancing the (pointer, remaining_length) cursor by 3 bytes requires —
the normal path at line 160 decrements, so the next call does not resume at
a consistent cursor. -/
theorem parseSse_early_exit_remaining_len_bug :
    (ParseSse false cfgEx dataEarly 1 (initState 16)).byte_buffer_ptr = 3 ∧
    (ParseSse false cfgEx dataEarly 1 (initState 16)).num_tuples = 1 ∧
    (ParseSse false cfgEx dataEarly 1 (initState 16)).row_end_locations = [2] ∧
    (ParseSse false cfgEx dataEarly 1 (initState 16)).remaining_len = 19 := by
  decide

/-- Counterexample to C2 as stated: on the 20-byte buffer `dataChunk`
(tuple delimiters at offsets 2 and 17), scanning with a bounded call
(`max_tuples = 1`, which takes the mid-window early exit at offset 2) and
then continuing with the state threaded through unchanged produces a
different ordered sequence of field locations and tuple ends than one
unbounded call: the bounded run's realigned windows reach the delimiter at
offset 17, which the single call's 16-byte-aligned windows never process. -/
theorem chunked_bounded_scan_counterexample :
    (ParseSse false cfgEx dataChunk 0
        (ParseSse false cfgEx dataChunk 1 (initState 20))).field_locations ≠
      (ParseSse false cfgEx dataChunk 0 (initState 20)).field_locations ∧
    (ParseSse false cfgEx dataChunk 0
        (ParseSse false cfgEx dataChunk 1 (initState 20))).row_end_locations ≠
      (ParseSse false cfgEx dataChunk 0 (initState 20)).row_end_locations := by
  decide

theorem addColumn_spec (pe : Bool) (cfg : ParserConfig) (len : Int) (s : ScanState) :
    AddColumn pe cfg len s =
      { column_idx_ := s.column_idx_ + 1,
        current_column_has_escape_ := if pe then false else s.current_column_has_escape_,
        last_char_is_escape_ := s.last_char_is_escape_,
        byte_buffer_ptr := s.byte_buffer_ptr,
        remaining_len := s.remaining_len,
        num_tuples := s.num_tuples,
        num_fields := if ReturnCurrentColumn cfg s then s.num_fields + 1 else s.num_fields,
        row_end_locations := s.row_end_locations,
        field_locations :=
          if ReturnCurrentColumn cfg s then
            s.field_locations ++
              [{ start := s.next_column_start,
                 len := if pe && s.current_column_has_escape_ then -len else len }]
          else s.field_locations,
        next_column_start := s.next_column_start + len + 1,
        materialized_cols :=
          if ReturnCurrentColumn cfg s then s.materialized_cols ++ [s.column_idx_]
          else s.materialized_cols } := by
  unfold AddColumn
  cases hR : ReturnCurrentColumn cfg s <;> cases pe <;> simp [hR]

theorem lsbAux_spec : ∀ fuel m, m ≠ 0 → m < 2 ^ fuel →
    m.testBit (lsbAux fuel m) = true ∧ ∀ j, j < lsbAux fuel m → m.testBit j = false := by
  intro fuel
  induction fuel with
  | zero =>
    intro m h0 hlt
    rw [pow_zero] at hlt
    exact absurd (by omega : m = 0) h0
  | succ fuel ih =>
    intro m h0 hlt
    by_cases h : m % 2 = 1
    · have hl : lsbAux (fuel+1) m = 0 := by simp [lsbAux, h]
      rw [hl]
      refine ⟨?_, fun j hj => absurd hj (Nat.not_lt_zero j)⟩
      rw [Nat.testBit_zero]
      simp [h]
    · have h2 : m / 2 ≠ 0 := by omega
      have hp : 2 ^ (fuel + 1) = 2 * 2 ^ fuel := by rw [pow_succ]; ring
      have h3 : m / 2 < 2 ^ fuel := by omega
      obtain ⟨ha, hb⟩ := ih (m / 2) h2 h3
      have hl : lsbAux (fuel+1) m = lsbAux fuel (m / 2) + 1 := by simp [lsbAux, h]
      rw [hl]
      constructor
      · rw [Nat.testBit_add_one]
        exact ha
      · intro j hj
        cases j with
        | zero =>
          rw [Nat.testBit_zero]
          simp [h]
        | succ j' =>
          rw [Nat.testBit_add_one]
          exact hb j' (by omega)

theorem lsbIdx_spec (m : Nat) (h0 : m ≠ 0) (hm : m < 65536) :
    m.testBit (lsbIdx m) = true ∧ ∀ j, j < lsbIdx m → m.testBit j = false := by
  have h : m < 2 ^ 16 := by
    rw [show (2 : Nat) ^ 16 = 65536 from by norm_num]
    exact hm
  exact lsbAux_spec 16 m h0 h

theorem lsbIdx_lt (m : Nat) (h0 : m ≠ 0) (hm : m < 65536) : lsbIdx m < 16 := by
  by_contra hge
  have hbit := (lsbIdx_spec m h0 hm).1
  have hfalse : m.testBit (lsbIdx m) = false := by
    apply Nat.testBit_lt_two_pow
    calc m < 65536 := hm
      _ = 2 ^ 16 := by norm_num
      _ ≤ 2 ^ lsbIdx m := Nat.pow_le_pow_right (by omega) (by omega)
  rw [hfalse] at hbit
  exact Bool.false_ne_true hbit

theorem cleared_mask_testBit (dm n j : Nat) (hn : n < 16)
    (h : (dm &&& (65535 ^^^ SSE_BITMASK n)).testBit j = true) :
    dm.testBit j = true ∧ j ≠ n := by
  rw [testBit_clear_bit dm n j hn] at h
  simp only [Bool.and_eq_true, Bool.not_eq_true', decide_eq_true_eq, decide_eq_false_iff_not]
    at h
  exact ⟨h.1.1, fun he => h.2 he.symm⟩

theorem matchMask_lt (data : List Nat) (ptr : Nat) (p : Nat → Bool) :
    matchMask data ptr p < 65536 := by
  have h65536 : (65536 : Nat) = 2 ^ 16 := by norm_num
  rw [h65536]
  unfold matchMask
  have hgen : ∀ (l : List Nat), (∀ i ∈ l, i < 16) → ∀ acc, acc < 2 ^ 16 →
      (l.foldl (fun m i => if p (byteAt data (ptr + i)) then m ||| SSE_BITMASK i else m) acc)
        < 2 ^ 16 := by
    intro l
    induction l with
    | nil => exact fun _ acc h => h
    | cons x xs ih =>
      intro hmem acc hacc
      simp only [List.foldl_cons]
      apply ih (fun i hi => hmem i (List.mem_cons.mpr (Or.inr hi)))
      by_cases hx : p (byteAt data (ptr + x)) = true
      · rw [if_pos hx]
        apply Nat.or_lt_two_pow hacc
        rw [sse_bitmask_two_pow]
        exact Nat.pow_lt_pow_right (by omega) (hmem x (List.mem_cons_self x xs))
      · rw [if_neg hx]
        exact hacc
  apply hgen
  · intro i hi
    simpa [CHARS_PER_128_BIT_REGISTER] using List.mem_range.mp hi
  · positivity

theorem pd_false_ncs (cfg : ParserConfig) (data : List Nat) (mt : Nat)
    (em n l : Nat) (s : ScanState) :
    (processDelimBit false cfg data mt em n l s).1.next_column_start =
      (s.byte_buffer_ptr : Int) + n + 1 := by
  by_cases htup : byteAt data (s.byte_buffer_ptr + n) = cfg.tuple_delim_ <;>
    by_cases hmt : s.num_tuples + 1 = mt <;>
      simp [processDelimBit, addColumn_spec, htup, hmt] <;>
        push_cast <;> ring

theorem pd_false_ptr (cfg : ParserConfig) (data : List Nat) (mt : Nat)
    (em n l : Nat) (s : ScanState) :
    ((processDelimBit false cfg data mt em n l s).2.2 = false →
      (processDelimBit false cfg data mt em n l s).1.byte_buffer_ptr = s.byte_buffer_ptr) ∧
    ((processDelimBit false cfg data mt em n l s).2.2 = true →
      (processDelimBit false cfg data mt em n l s).1.byte_buffer_ptr =
        s.byte_buffer_ptr + (n + 1)) := by
  by_cases htup : byteAt data (s.byte_buffer_ptr + n) = cfg.tuple_delim_ <;>
    by_cases hmt : s.num_tuples + 1 = mt <;>
      simp [processDelimBit, addColumn_spec, htup, hmt]

theorem pd_false_fields (cfg : ParserConfig) (data : List Nat) (mt : Nat)
    (em n l : Nat) (s : ScanState)
    (hlen : s.next_column_start ≤ (s.byte_buffer_ptr : Int) + n) :
    ∃ t, (processDelimBit false cfg data mt em n l s).1.field_locations =
        s.field_locations ++ t ∧ ∀ fl ∈ t, 0 ≤ fl.len := by
  have hnn : (0 : Int) ≤ ((s.byte_buffer_ptr : Int) + n) - s.next_column_start := by omega
  by_cases htup : byteAt data (s.byte_buffer_ptr + n) = cfg.tuple_delim_ <;>
    by_cases hmt : s.num_tuples + 1 = mt <;>
      by_cases hR : ReturnCurrentColumn cfg s = true <;>
        simp [processDelimBit, addColumn_spec, htup, hmt, hR] <;>
        first
        | exact hlen
        | exact ⟨[], by simp, by simp⟩
        | exact ⟨[{ start := s.next_column_start,
                    len := ((s.byte_buffer_ptr : Int) + n) - s.next_column_start }],
            by push_cast; ring_nf, by
              intro fl hfl
              rw [List.mem_singleton] at hfl
              subst hfl
              simpa using hnn⟩

theorem walkDelims_false_spec (cfg : ParserConfig) (data : List Nat) (mt : Nat)
    (em : Nat) :
    ∀ fuel dm l s, dm < 65536 →
      (∀ i : Nat, dm.testBit i = true →
        s.next_column_start ≤ (s.byte_buffer_ptr : Int) + (i : Int)) →
      s.next_column_start ≤ (s.byte_buffer_ptr : Int) + 16 →
      (∃ t, (walkDelims false cfg data mt em fuel dm l s).1.field_locations =
          s.field_locations ++ t ∧ ∀ fl ∈ t, 0 ≤ fl.len) ∧
      ((walkDelims false cfg data mt em fuel dm l s).2.2 = false →
        (walkDelims false cfg data mt em fuel dm l s).1.byte_buffer_ptr = s.byte_buffer_ptr ∧
        (walkDelims false cfg data mt em fuel dm l s).1.next_column_start ≤
          (s.byte_buffer_ptr : Int) + 16) ∧
      ((walkDelims false cfg data mt em fuel dm l s).2.2 = true →
        (walkDelims false cfg data mt em fuel dm l s).1.next_column_start ≤
          ((walkDelims false cfg data mt em fuel dm l s).1.byte_buffer_ptr : Int)) := by
  intro fuel
  induction fuel with
  | zero =>
    intro dm l s hdm hbits hncs
    exact ⟨⟨[], by simp [walkDelims], by simp⟩, fun _ => ⟨rfl, hncs⟩,
      fun h => (Bool.false_ne_true h).elim⟩
  | succ fuel ih =>
    intro dm l s hdm hbits hncs
    by_cases hdm0 : dm = 0
    · subst hdm0
      have hz : walkDelims false cfg data mt em (fuel+1) 0 l s = (s, l, false) := by
        simp [walkDelims]
      rw [hz]
      exact ⟨⟨[], by simp, by simp⟩, fun _ => ⟨rfl, hncs⟩,
        fun h => (Bool.false_ne_true h).elim⟩
    · have hstep : walkDelims false cfg data mt em (fuel+1) dm l s =
          (if (processDelimBit false cfg data mt em (lsbIdx dm) l s).2.2 then
             processDelimBit false cfg data mt em (lsbIdx dm) l s
           else walkDelims false cfg data mt em fuel
             (dm &&& (65535 ^^^ SSE_BITMASK (lsbIdx dm)))
             (processDelimBit false cfg data mt em (lsbIdx dm) l s).2.1
             (processDelimBit false cfg data mt em (lsbIdx dm) l s).1) := by
        simp [walkDelims, hdm0]
      have hn16 : lsbIdx dm < 16 := lsbIdx_lt dm hdm0 hdm
      have hbitn : dm.testBit (lsbIdx dm) = true := (lsbIdx_spec dm hdm0 hdm).1
      have hlow : ∀ j, j < lsbIdx dm → dm.testBit j = false := (lsbIdx_spec dm hdm0 hdm).2
      have hlen : s.next_column_start ≤ (s.byte_buffer_ptr : Int) + lsbIdx dm :=
        hbits _ hbitn
      obtain ⟨t₁, hft₁, hnn₁⟩ := pd_false_fields cfg data mt em (lsbIdx dm) l s hlen
      have hncs₁ := pd_false_ncs cfg data mt em (lsbIdx dm) l s
      have hptr := pd_false_ptr cfg data mt em (lsbIdx dm) l s
      cases hflag : (processDelimBit false cfg data mt em (lsbIdx dm) l s).2.2 with
      | true =>
        have hsel : walkDelims false cfg data mt em (fuel+1) dm l s =
            processDelimBit false cfg data mt em (lsbIdx dm) l s := by
          rw [hstep, if_pos hflag]
        rw [hsel]
        refine ⟨⟨t₁, hft₁, hnn₁⟩, fun h => absurd (hflag ▸ h) (by simp), fun _ => ?_⟩
        rw [hncs₁, hptr.2 hflag]
        push_cast
        omega
      | false =>
        have hsel : walkDelims false cfg data mt em (fuel+1) dm l s =
            walkDelims false cfg data mt em fuel
              (dm &&& (65535 ^^^ SSE_BITMASK (lsbIdx dm)))
              (processDelimBit false cfg data mt em (lsbIdx dm) l s).2.1
              (processDelimBit false cfg data mt em (lsbIdx dm) l s).1 := by
          rw [hstep, if_neg]
          rw [hflag]
          exact Bool.false_ne_true
        have hptr₁ : (processDelimBit false cfg data mt em (lsbIdx dm) l s).1.byte_buffer_ptr =
            s.byte_buffer_ptr := hptr.1 hflag
        have hdm' : dm &&& (65535 ^^^ SSE_BITMASK (lsbIdx dm)) < 65536 :=
          Nat.lt_of_le_of_lt Nat.and_le_left hdm
        have hbits' : ∀ i, (dm &&& (65535 ^^^ SSE_BITMASK (lsbIdx dm))).testBit i = true →
            (processDelimBit false cfg data mt em (lsbIdx dm) l s).1.next_column_start ≤
              ((processDelimBit false cfg data mt em (lsbIdx dm) l s).1.byte_buffer_ptr : Int)
                + i := by
          intro i hi
          obtain ⟨hdi, hine⟩ := cleared_mask_testBit dm (lsbIdx dm) i hn16 hi
          have hgt : lsbIdx dm < i := by
            rcases Nat.lt_or_ge i (lsbIdx dm) with hc | hc
            · rw [hlow i hc] at hdi
              exact absurd hdi (by simp)
            · omega
          rw [hncs₁, hptr₁]
          push_cast
          omega
        have hncs' : (processDelimBit false cfg data mt em (lsbIdx dm) l s).1.next_column_start ≤
            ((processDelimBit false cfg data mt em (lsbIdx dm) l s).1.byte_buffer_ptr : Int)
              + 16 := by
          rw [hncs₁, hptr₁]
          push_cast
          omega
        obtain ⟨⟨t₂, hft₂, hnn₂⟩, hF, hT⟩ := ih
          (dm &&& (65535 ^^^ SSE_BITMASK (lsbIdx dm)))
          (processDelimBit false cfg data mt em (lsbIdx dm) l s).2.1
          (processDelimBit false cfg data mt em (lsbIdx dm) l s).1
          hdm' hbits' hncs'
        rw [hsel]
        refine ⟨⟨t₁ ++ t₂, ?_, ?_⟩, ?_, ?_⟩
        · rw [hft₂, hft₁, List.append_assoc]
        · intro fl hfl
          rcases List.mem_append.mp hfl with h' | h'
          · exact hnn₁ fl h'
          · exact hnn₂ fl h'
        · intro h
          obtain ⟨hp, hq⟩ := hF h
          exact ⟨hp.trans hptr₁, by rw [hptr₁] at hq; exact hq⟩
        · exact hT

theorem parseWindow_false_eq (cfg : ParserConfig) (data : List Nat) (mt : Nat)
    (s : ScanState) :
    parseWindow false cfg data mt s =
      (if (walkDelims false cfg data mt 0 CHARS_PER_128_BIT_REGISTER
            (matchMask data s.byte_buffer_ptr (isDelim cfg)) 0 s).2.2 then
         ((walkDelims false cfg data mt 0 CHARS_PER_128_BIT_REGISTER
            (matchMask data s.byte_buffer_ptr (isDelim cfg)) 0 s).1, true)
       else
         ({ (walkDelims false cfg data mt 0 CHARS_PER_128_BIT_REGISTER
              (matchMask data s.byte_buffer_ptr (isDelim cfg)) 0 s).1 with
            remaining_len := (walkDelims false cfg data mt 0 CHARS_PER_128_BIT_REGISTER
              (matchMask data s.byte_buffer_ptr (isDelim cfg)) 0 s).1.remaining_len -
                (CHARS_PER_128_BIT_REGISTER : Int),
            byte_buffer_ptr := (walkDelims false cfg data mt 0 CHARS_PER_128_BIT_REGISTER
              (matchMask data s.byte_buffer_ptr (isDelim cfg)) 0 s).1.byte_buffer_ptr +
                CHARS_PER_128_BIT_REGISTER }, false)) := rfl

theorem parseWindow_false_spec (cfg : ParserConfig) (data : List Nat) (mt : Nat)
    (s : ScanState) (h : s.next_column_start ≤ (s.byte_buffer_ptr : Int)) :
    (∃ t, (parseWindow false cfg data mt s).1.field_locations = s.field_locations ++ t ∧
      ∀ fl ∈ t, 0 ≤ fl.len) ∧
    (parseWindow false cfg data mt s).1.next_column_start ≤
      ((parseWindow false cfg data mt s).1.byte_buffer_ptr : Int) := by
  have hdm : matchMask data s.byte_buffer_ptr (isDelim cfg) < 65536 := matchMask_lt data _ _
  obtain ⟨⟨t, hft, hnn⟩, hF, hT⟩ := walkDelims_false_spec cfg data mt 0
    CHARS_PER_128_BIT_REGISTER (matchMask data s.byte_buffer_ptr (isDelim cfg)) 0 s
    hdm (fun i _ => by omega) (by omega)
  rw [parseWindow_false_eq]
  cases hflag : (walkDelims false cfg data mt 0 CHARS_PER_128_BIT_REGISTER
      (matchMask data s.byte_buffer_ptr (isDelim cfg)) 0 s).2.2 with
  | true =>
    rw [if_pos rfl]
    exact ⟨⟨t, hft, hnn⟩, hT hflag⟩
  | false =>
    rw [if_neg Bool.false_ne_true]
    obtain ⟨hp, hq⟩ := hF hflag
    refine ⟨⟨t, hft, hnn⟩, ?_⟩
    show (walkDelims false cfg data mt 0 CHARS_PER_128_BIT_REGISTER
      (matchMask data s.byte_buffer_ptr (isDelim cfg)) 0 s).1.next_column_start ≤
        (((walkDelims false cfg data mt 0 CHARS_PER_128_BIT_REGISTER
          (matchMask data s.byte_buffer_ptr (isDelim cfg)) 0 s).1.byte_buffer_ptr +
            16 : Nat) : Int)
    rw [hp]
    push_cast
    omega

theorem ParseSseLoop_false_spec (cfg : ParserConfig) (data : List Nat) (mt : Nat) :
    ∀ fuel s, s.next_column_start ≤ (s.byte_buffer_ptr : Int) →
      (∃ t, (ParseSseLoop false cfg data mt fuel s).field_locations =
          s.field_locations ++ t ∧ ∀ fl ∈ t, 0 ≤ fl.len) ∧
      (ParseSseLoop false cfg data mt fuel s).next_column_start ≤
        ((ParseSseLoop false cfg data mt fuel s).byte_buffer_ptr : Int) := by
  intro fuel
  induction fuel with
  | zero => exact fun s h => ⟨⟨[], by simp [ParseSseLoop], by simp⟩, h⟩
  | succ fuel ih =>
    intro s h
    by_cases h16 : (CHARS_PER_128_BIT_REGISTER : Int) ≤ s.remaining_len
    · obtain ⟨⟨t₁, hf₁, hn₁⟩, hc⟩ := parseWindow_false_spec cfg data mt s h
      cases hflag : (parseWindow false cfg data mt s).2 with
      | false =>
        have hloop : ParseSseLoop false cfg data mt (fuel+1) s =
            ParseSseLoop false cfg data mt fuel (parseWindow false cfg data mt s).1 := by
          simp [ParseSseLoop, h16, hflag]
        rw [hloop]
        obtain ⟨⟨t₂, hf₂, hn₂⟩, hc₂⟩ := ih (parseWindow false cfg data mt s).1 hc
        refine ⟨⟨t₁ ++ t₂, ?_, ?_⟩, hc₂⟩
        · rw [hf₂, hf₁, List.append_assoc]
        · intro fl hfl
          rcases List.mem_append.mp hfl with h' | h'
          · exact hn₁ fl h'
          · exact hn₂ fl h'
      | true =>
        have hloop : ParseSseLoop false cfg data mt (fuel+1) s =
            (parseWindow false cfg data mt s).1 := by
          simp [ParseSseLoop, h16, hflag]
        rw [hloop]
        exact ⟨⟨t₁, hf₁, hn₁⟩, hc⟩
    · have hloop : ParseSseLoop false cfg data mt (fuel+1) s = s := by
        simp [ParseSseLoop, h16]
      rw [hloop]
      exact ⟨⟨[], by simp, by simp⟩, h⟩

/-- C5: when no escape character is configured (escape processing off), every
field length written into the output field-location sequence over the course
of a `ParseSse` call is non-negative: each field of the final output either
was already present initially or has a non-negative length.  The hypothesis
is the parser's cursor discipline — the next-column-start pointer does not
lie beyond the current read position. -/
theorem no_escape_field_lengths_nonneg (cfg : ParserConfig) (data : List Nat)
    (max_tuples : Nat) (s : ScanState)
    (h : s.next_column_start ≤ (s.byte_buffer_ptr : Int)) :
    ∀ fl ∈ (ParseSse false cfg data max_tuples s).field_locations,
      fl ∈ s.field_locations ∨ 0 ≤ fl.len := by
  intro fl hfl
  obtain ⟨⟨t, hft, hnn⟩, _⟩ :=
    ParseSseLoop_false_spec cfg data max_tuples s.remaining_len.toNat s h
  unfold ParseSse at hfl
  rw [hft] at hfl
  rcases List.mem_append.mp hfl with h' | h'
  · exact Or.inl h'
  · exact Or.inr (hnn fl h')

/-- Witness for C5 at a concrete input: a fresh 16-byte scan over `dataEarly`
satisfies the cursor hypothesis, so every output field is new and
non-negative. -/
theorem no_escape_field_lengths_nonneg_witness :
    ((initState 16).next_column_start ≤ ((initState 16).byte_buffer_ptr : Int)) ∧
    (∀ fl ∈ (ParseSse false cfgEx dataEarly 0 (initState 16)).field_locations,
      fl ∈ (initState 16).field_locations ∨ 0 ≤ fl.len) :=
  ⟨by decide, no_escape_field_lengths_nonneg cfgEx dataEarly 0 (initState 16) (by decide)⟩

theorem pd_cols (pe : Bool) (cfg : ParserConfig) (data : List Nat) (mt : Nat)
    (em n l : Nat) (s : ScanState) (h : cfg.num_partition_keys ≤ s.column_idx_) :
    cfg.num_partition_keys ≤ (processDelimBit pe cfg data mt em n l s).1.column_idx_ ∧
    ∃ t, (processDelimBit pe cfg data mt em n l s).1.materialized_cols =
        s.materialized_cols ++ t ∧ ∀ c ∈ t, cfg.num_partition_keys ≤ c := by
  cases pe <;>
    by_cases htup : byteAt data (s.byte_buffer_ptr + n) = cfg.tuple_delim_ <;>
      by_cases hmt : s.num_tuples + 1 = mt <;>
        by_cases hR : cfg.is_materialized_col s.column_idx_ = true <;>
          simp [processDelimBit, markEscaped, addColumn_spec, ReturnCurrentColumn,
            htup, hmt, hR] <;>
          first
          | omega
          | exact ⟨by omega, [], by simp, by simp⟩
          | exact ⟨by omega, [s.column_idx_], rfl, by
              intro c hc
              rw [List.mem_singleton] at hc
              subst hc
              omega⟩
          | refine ⟨by omega, ?_⟩

theorem walkDelims_cols (pe : Bool) (cfg : ParserConfig) (data : List Nat)
    (mt : Nat) (em : Nat) :
    ∀ fuel dm l s, cfg.num_partition_keys ≤ s.column_idx_ →
      cfg.num_partition_keys ≤ (walkDelims pe cfg data mt em fuel dm l s).1.column_idx_ ∧
      ∃ t, (walkDelims pe cfg data mt em fuel dm l s).1.materialized_cols =
          s.materialized_cols ++ t ∧ ∀ c ∈ t, cfg.num_partition_keys ≤ c := by
  intro fuel
  induction fuel with
  | zero =>
    intro dm l s h
    exact ⟨h, [], by simp [walkDelims], by simp⟩
  | succ fuel ih =>
    intro dm l s h
    by_cases hdm0 : dm = 0
    · subst hdm0
      have hz : walkDelims pe cfg data mt em (fuel+1) 0 l s = (s, l, false) := by
        simp [walkDelims]
      rw [hz]
      exact ⟨h, [], by simp, by simp⟩
    · have hstep : walkDelims pe cfg data mt em (fuel+1) dm l s =
          (if (processDelimBit pe cfg data mt em (lsbIdx dm) l s).2.2 then
             processDelimBit pe cfg data mt em (lsbIdx dm) l s
           else walkDelims pe cfg data mt em fuel
             (dm &&& (65535 ^^^ SSE_BITMASK (lsbIdx dm)))
             (processDelimBit pe cfg data mt em (lsbIdx dm) l s).2.1
             (processDelimBit pe cfg data mt em (lsbIdx dm) l s).1) := by
        simp [walkDelims, hdm0]
      obtain ⟨hc₁, t₁, ht₁, hn₁⟩ := pd_cols pe cfg data mt em (lsbIdx dm) l s h
      cases hflag : (processDelimBit pe cfg data mt em (lsbIdx dm) l s).2.2 with
      | true =>
        rw [hstep, if_pos hflag]
        exact ⟨hc₁, t₁, ht₁, hn₁⟩
      | false =>
        rw [hstep, if_neg (by rw [hflag]; exact Bool.false_ne_true)]
        obtain ⟨hc₂, t₂, ht₂, hn₂⟩ := ih
          (dm &&& (65535 ^^^ SSE_BITMASK (lsbIdx dm)))
          (processDelimBit pe cfg data mt em (lsbIdx dm) l s).2.1
          (processDelimBit pe cfg data mt em (lsbIdx dm) l s).1 hc₁
        refine ⟨hc₂, t₁ ++ t₂, ?_, ?_⟩
        · rw [ht₂, ht₁, List.append_assoc]
        · intro c hc
          rcases List.mem_append.mp hc with h' | h'
          · exact hn₁ c h'
          · exact hn₂ c h'

theorem foldTailEscape_cols (pe : Bool) (em l : Nat) (s : ScanState) :
    (foldTailEscape pe em l s).column_idx_ = s.column_idx_ ∧
    (foldTailEscape pe em l s).materialized_cols = s.materialized_cols := by
  cases pe <;> simp [foldTailEscape]

theorem parseWindow_cols (pe : Bool) (cfg : ParserConfig) (data : List Nat)
    (mt : Nat) (s : ScanState) (h : cfg.num_partition_keys ≤ s.column_idx_) :
    cfg.num_partition_keys ≤ (parseWindow pe cfg data mt s).1.column_idx_ ∧
    ∃ t, (parseWindow pe cfg data mt s).1.materialized_cols =
        s.materialized_cols ++ t ∧ ∀ c ∈ t, cfg.num_partition_keys ≤ c := by
  unfold parseWindow
  dsimp only
  set EM := if pe then matchMask data s.byte_buffer_ptr (· == cfg.escape_char_) else 0 with hEM
  set CR := if pe then
      ProcessEscapeMask EM s.last_char_is_escape_
        (matchMask data s.byte_buffer_ptr (isDelim cfg))
    else ⟨s.last_char_is_escape_, matchMask data s.byte_buffer_ptr (isDelim cfg)⟩ with hCR
  set S0 : ScanState := { s with last_char_is_escape_ := CR.last_char_is_escape } with hS0
  have hS0c : cfg.num_partition_keys ≤ S0.column_idx_ := h
  obtain ⟨hc, t, ht, hn⟩ := walkDelims_cols pe cfg data mt EM
    CHARS_PER_128_BIT_REGISTER CR.delim_mask 0 S0 hS0c
  cases hflag : (walkDelims pe cfg data mt EM CHARS_PER_128_BIT_REGISTER
      CR.delim_mask 0 S0).2.2 with
  | true =>
    rw [if_pos rfl]
    exact ⟨hc, t, ht, hn⟩
  | false =>
    rw [if_neg Bool.false_ne_true]
    obtain ⟨hfc, hfm⟩ := foldTailEscape_cols pe EM
      (walkDelims pe cfg data mt EM CHARS_PER_128_BIT_REGISTER CR.delim_mask 0 S0).2.1
      (walkDelims pe cfg data mt EM CHARS_PER_128_BIT_REGISTER CR.delim_mask 0 S0).1
    constructor
    · show cfg.num_partition_keys ≤ (foldTailEscape pe EM _ _).column_idx_
      rw [hfc]
      exact hc
    · refine ⟨t, ?_, hn⟩
      show (foldTailEscape pe EM _ _).materialized_cols = s.materialized_cols ++ t
      rw [hfm]
      exact ht

theorem ParseSseLoop_cols (pe : Bool) (cfg : ParserConfig) (data : List Nat)
    (mt : Nat) :
    ∀ fuel s, cfg.num_partition_keys ≤ s.column_idx_ →
      cfg.num_partition_keys ≤ (ParseSseLoop pe cfg data mt fuel s).column_idx_ ∧
      ∃ t, (ParseSseLoop pe cfg data mt fuel s).materialized_cols =
          s.materialized_cols ++ t ∧ ∀ c ∈ t, cfg.num_partition_keys ≤ c := by
  intro fuel
  induction fuel with
  | zero => exact fun s h => ⟨h, [], by simp [ParseSseLoop], by simp⟩
  | succ fuel ih =>
    intro s h
    by_cases h16 : (CHARS_PER_128_BIT_REGISTER : Int) ≤ s.remaining_len
    · obtain ⟨hc₁, t₁, ht₁, hn₁⟩ := parseWindow_cols pe cfg data mt s h
      cases hflag : (parseWindow pe cfg data mt s).2 with
      | false =>
        have hloop : ParseSseLoop pe cfg data mt (fuel+1) s =
            ParseSseLoop pe cfg data mt fuel (parseWindow pe cfg data mt s).1 := by
          simp [ParseSseLoop, h16, hflag]
        rw [hloop]
        obtain ⟨hc₂, t₂, ht₂, hn₂⟩ := ih (parseWindow pe cfg data mt s).1 hc₁
        refine ⟨hc₂, t₁ ++ t₂, ?_, ?_⟩
        · rw [ht₂, ht₁, List.append_assoc]
        · intro c hc
          rcases List.mem_append.mp hc with h' | h'
          · exact hn₁ c h'
          · exact hn₂ c h'
      | true =>
        have hloop : ParseSseLoop pe cfg data mt (fuel+1) s =
            (parseWindow pe cfg data mt s).1 := by
          simp [ParseSseLoop, h16, hflag]
        rw [hloop]
        exact ⟨hc₁, t₁, ht₁, hn₁⟩
    · have hloop : ParseSseLoop pe cfg data mt (fuel+1) s = s := by
        simp [ParseSseLoop, h16]
      rw [hloop]
      exact ⟨h, [], by simp, by simp⟩

/-- C6: immediately after processing a byte equal to the tuple delimiter,
`column_idx_` equals the configured partition-key count (first conjunct,
about the per-delimiter step of the scan loop, whether or not the
`max_tuples` early exit fires), and whenever the scan starts with
`column_idx_` at or above the partition-key count, every column index
recorded into the output over the whole call is at or above the
partition-key count — no column below it is ever recorded (second
conjunct, via the ghost record of materialized column ordinals). -/
theorem partition_key_skip :
    (∀ (pe : Bool) (cfg : ParserConfig) (data : List Nat) (mt : Nat)
       (em n l : Nat) (s : ScanState),
       byteAt data (s.byte_buffer_ptr + n) = cfg.tuple_delim_ →
       (processDelimBit pe cfg data mt em n l s).1.column_idx_ =
         cfg.num_partition_keys) ∧
    (∀ (pe : Bool) (cfg : ParserConfig) (data : List Nat) (mt : Nat)
       (s : ScanState),
       cfg.num_partition_keys ≤ s.column_idx_ →
       ∀ c ∈ (ParseSse pe cfg data mt s).materialized_cols,
         c ∈ s.materialized_cols ∨ cfg.num_partition_keys ≤ c) := by
  constructor
  · intro pe cfg data mt em n l s htup
    cases pe <;>
      by_cases hmt : s.num_tuples + 1 = mt <;>
        simp [processDelimBit, markEscaped, addColumn_spec, htup, hmt]
  · intro pe cfg data mt s h c hc
    obtain ⟨_, t, ht, hn⟩ := ParseSseLoop_cols pe cfg data mt s.remaining_len.toNat s h
    unfold ParseSse at hc
    rw [ht] at hc
    rcases List.mem_append.mp hc with h' | h'
    · exact Or.inl h'
    · exact Or.inr (hn c h')

/-- Witness for C6 at concrete inputs: the step at the tuple delimiter of
`dataEarly` (offset 2) resets `column_idx_` to the partition-key count, and a
fresh full scan records only columns at or above it. -/
theorem partition_key_skip_witness :
    ((byteAt dataEarly ((initState 16).byte_buffer_ptr + 2) = cfgEx.tuple_delim_) ∧
     (processDelimBit false cfgEx dataEarly 1 0 2 0 (initState 16)).1.column_idx_ =
       cfgEx.num_partition_keys) ∧
    ((cfgEx.num_partition_keys ≤ (initState 16).column_idx_) ∧
     ∀ c ∈ (ParseSse false cfgEx dataEarly 0 (initState 16)).materialized_cols,
       c ∈ (initState 16).materialized_cols ∨ cfgEx.num_partition_keys ≤ c) :=
  ⟨⟨by decide, partition_key_skip.1 false cfgEx dataEarly 1 0 2 0 (initState 16) (by decide)⟩,
   ⟨by decide, partition_key_skip.2 false cfgEx dataEarly 0 (initState 16) (by decide)⟩⟩

@[simp] theorem addRem_column_idx (b : Int) (s : ScanState) :
    (addRem b s).column_idx_ = s.column_idx_ := rfl

@[simp] theorem addRem_escape_flag (b : Int) (s : ScanState) :
    (addRem b s).current_column_has_escape_ = s.current_column_has_escape_ := rfl

@[simp] theorem addRem_carry (b : Int) (s : ScanState) :
    (addRem b s).last_char_is_escape_ = s.last_char_is_escape_ := rfl

@[simp] theorem addRem_ptr (b : Int) (s : ScanState) :
    (addRem b s).byte_buffer_ptr = s.byte_buffer_ptr := rfl

@[simp] theorem addRem_remaining (b : Int) (s : ScanState) :
    (addRem b s).remaining_len = s.remaining_len + b := rfl

@[simp] theorem addRem_num_tuples (b : Int) (s : ScanState) :
    (addRem b s).num_tuples = s.num_tuples := rfl

@[simp] theorem addRem_num_fields (b : Int) (s : ScanState) :
    (addRem b s).num_fields = s.num_fields := rfl

@[simp] theorem addRem_rows (b : Int) (s : ScanState) :
    (addRem b s).row_end_locations = s.row_end_locations := rfl

@[simp] theorem addRem_fields (b : Int) (s : ScanState) :
    (addRem b s).field_locations = s.field_locations := rfl

@[simp] theorem addRem_ncs (b : Int) (s : ScanState) :
    (addRem b s).next_column_start = s.next_column_start := rfl

@[simp] theorem addRem_cols (b : Int) (s : ScanState) :
    (addRem b s).materialized_cols = s.materialized_cols := rfl

theorem pd_addRem (pe : Bool) (cfg : ParserConfig) (data : List Nat) (mt : Nat)
    (em n l : Nat) (b : Int) (s : ScanState) :
    (processDelimBit pe cfg data mt em n l (addRem b s)).1 =
      addRem b (processDelimBit pe cfg data mt em n l s).1 ∧
    (processDelimBit pe cfg data mt em n l (addRem b s)).2 =
      (processDelimBit pe cfg data mt em n l s).2 := by
  cases pe <;>
    by_cases htup : byteAt data (s.byte_buffer_ptr + n) = cfg.tuple_delim_ <;>
      by_cases hmt : s.num_tuples + 1 = mt <;>
        by_cases hR : cfg.is_materialized_col s.column_idx_ = true <;>
          simp [processDelimBit, markEscaped, addColumn_spec, ReturnCurrentColumn,
            addRem, htup, hmt, hR] <;>
          omega

theorem walkDelims_addRem (pe : Bool) (cfg : ParserConfig) (data : List Nat)
    (mt : Nat) (em : Nat) (b : Int) :
    ∀ fuel dm l s,
      (walkDelims pe cfg data mt em fuel dm l (addRem b s)).1 =
        addRem b (walkDelims pe cfg data mt em fuel dm l s).1 ∧
      (walkDelims pe cfg data mt em fuel dm l (addRem b s)).2 =
        (walkDelims pe cfg data mt em fuel dm l s).2 := by
  intro fuel
  induction fuel with
  | zero => exact fun dm l s => ⟨rfl, rfl⟩
  | succ fuel ih =>
    intro dm l s
    by_cases hdm0 : dm = 0
    · subst hdm0
      constructor <;> simp [walkDelims]
    · have hstepL : walkDelims pe cfg data mt em (fuel+1) dm l (addRem b s) =
          (if (processDelimBit pe cfg data mt em (lsbIdx dm) l (addRem b s)).2.2 then
             processDelimBit pe cfg data mt em (lsbIdx dm) l (addRem b s)
           else walkDelims pe cfg data mt em fuel
             (dm &&& (65535 ^^^ SSE_BITMASK (lsbIdx dm)))
             (processDelimBit pe cfg data mt em (lsbIdx dm) l (addRem b s)).2.1
             (processDelimBit pe cfg data mt em (lsbIdx dm) l (addRem b s)).1) := by
        simp [walkDelims, hdm0]
      have hstepR : walkDelims pe cfg data mt em (fuel+1) dm l s =
          (if (processDelimBit pe cfg data mt em (lsbIdx dm) l s).2.2 then
             processDelimBit pe cfg data mt em (lsbIdx dm) l s
           else walkDelims pe cfg data mt em fuel
             (dm &&& (65535 ^^^ SSE_BITMASK (lsbIdx dm)))
             (processDelimBit pe cfg data mt em (lsbIdx dm) l s).2.1
             (processDelimBit pe cfg data mt em (lsbIdx dm) l s).1) := by
        simp [walkDelims, hdm0]
      obtain ⟨hp1, hp2⟩ := pd_addRem pe cfg data mt em (lsbIdx dm) l b s
      rw [hstepL, hstepR, hp1, hp2]
      cases hflag : (processDelimBit pe cfg data mt em (lsbIdx dm) l s).2.2 with
      | true =>
        rw [if_pos rfl, if_pos rfl]
        exact ⟨hp1, hp2⟩
      | false =>
        rw [if_neg Bool.false_ne_true, if_neg Bool.false_ne_true]
        exact ih (dm &&& (65535 ^^^ SSE_BITMASK (lsbIdx dm)))
          (processDelimBit pe cfg data mt em (lsbIdx dm) l s).2.1
          (processDelimBit pe cfg data mt em (lsbIdx dm) l s).1

theorem foldTailEscape_addRem (pe : Bool) (em l : Nat) (b : Int) (s : ScanState) :
    foldTailEscape pe em l (addRem b s) = addRem b (foldTailEscape pe em l s) := by
  cases pe <;> simp [foldTailEscape, addRem]

theorem parseWindow_addRem (pe : Bool) (cfg : ParserConfig) (data : List Nat)
    (mt : Nat) (b : Int) (s : ScanState) :
    (parseWindow pe cfg data mt (addRem b s)).1 =
      addRem b (parseWindow pe cfg data mt s).1 ∧
    (parseWindow pe cfg data mt (addRem b s)).2 = (parseWindow pe cfg data mt s).2 := by
  obtain ⟨a1, a2, a3, a4, a5, a6, a7, a8, a9, a10, a11⟩ := s
  unfold parseWindow
  dsimp only [addRem]
  set EM := if pe then matchMask data a4 (· == cfg.escape_char_) else 0 with hEM
  set CR := if pe then
      ProcessEscapeMask EM a3 (matchMask data a4 (isDelim cfg))
    else ⟨a3, matchMask data a4 (isDelim cfg)⟩ with hCR
  obtain ⟨hw1, hw2⟩ := walkDelims_addRem pe cfg data mt EM b
    CHARS_PER_128_BIT_REGISTER CR.delim_mask 0
    ⟨a1, a2, CR.last_char_is_escape, a4, a5, a6, a7, a8, a9, a10, a11⟩
  have hA : (⟨a1, a2, CR.last_char_is_escape, a4, a5 + b, a6, a7, a8, a9, a10, a11⟩ :
      ScanState) =
      addRem b ⟨a1, a2, CR.last_char_is_escape, a4, a5, a6, a7, a8, a9, a10, a11⟩ := rfl
  rw [hA, hw1, hw2]
  cases hflag : (walkDelims pe cfg data mt EM CHARS_PER_128_BIT_REGISTER CR.delim_mask 0
      ⟨a1, a2, CR.last_char_is_escape, a4, a5, a6, a7, a8, a9, a10, a11⟩).2.2 with
  | true =>
    rw [if_pos rfl, if_pos rfl]
    exact ⟨rfl, rfl⟩
  | false =>
    rw [if_neg Bool.false_ne_true, if_neg Bool.false_ne_true]
    rw [foldTailEscape_addRem]
    refine ⟨?_, rfl⟩
    simp [addRem, ScanState.mk.injEq]
    omega

theorem pd_not_early_rem (pe : Bool) (cfg : ParserConfig) (data : List Nat)
    (mt : Nat) (em n l : Nat) (s : ScanState) :
    (processDelimBit pe cfg data mt em n l s).2.2 = false →
      (processDelimBit pe cfg data mt em n l s).1.remaining_len = s.remaining_len := by
  cases pe <;>
    by_cases htup : byteAt data (s.byte_buffer_ptr + n) = cfg.tuple_delim_ <;>
      by_cases hmt : s.num_tuples + 1 = mt <;>
        simp [processDelimBit, markEscaped, addColumn_spec, htup, hmt]

theorem walkDelims_not_early_rem (pe : Bool) (cfg : ParserConfig) (data : List Nat)
    (mt : Nat) (em : Nat) :
    ∀ fuel dm l s, (walkDelims pe cfg data mt em fuel dm l s).2.2 = false →
      (walkDelims pe cfg data mt em fuel dm l s).1.remaining_len = s.remaining_len := by
  intro fuel
  induction fuel with
  | zero => exact fun dm l s _ => rfl
  | succ fuel ih =>
    intro dm l s h
    by_cases hdm0 : dm = 0
    · subst hdm0
      simp [walkDelims]
    · have hstep : walkDelims pe cfg data mt em (fuel+1) dm l s =
          (if (processDelimBit pe cfg data mt em (lsbIdx dm) l s).2.2 then
             processDelimBit pe cfg data mt em (lsbIdx dm) l s
           else walkDelims pe cfg data mt em fuel
             (dm &&& (65535 ^^^ SSE_BITMASK (lsbIdx dm)))
             (processDelimBit pe cfg data mt em (lsbIdx dm) l s).2.1
             (processDelimBit pe cfg data mt em (lsbIdx dm) l s).1) := by
        simp [walkDelims, hdm0]
      rw [hstep] at h ⊢
      cases hflag : (processDelimBit pe cfg data mt em (lsbIdx dm) l s).2.2 with
      | true =>
        rw [if_pos hflag] at h
        rw [hflag] at h
        exact absurd h (by simp)
      | false =>
        rw [if_neg (by rw [hflag]; exact Bool.false_ne_true)] at h
        rw [if_neg Bool.false_ne_true]
        rw [ih _ _ _ h]
        exact pd_not_early_rem pe cfg data mt em (lsbIdx dm) l s hflag

theorem foldTailEscape_rem (pe : Bool) (em l : Nat) (s : ScanState) :
    (foldTailEscape pe em l s).remaining_len = s.remaining_len := by
  cases pe <;> simp [foldTailEscape]

theorem parseWindow_not_early_rem (pe : Bool) (cfg : ParserConfig) (data : List Nat)
    (mt : Nat) (s : ScanState) :
    (parseWindow pe cfg data mt s).2 = false →
      (parseWindow pe cfg data mt s).1.remaining_len = s.remaining_len - 16 := by
  unfold parseWindow
  dsimp only
  set EM := if pe then matchMask data s.byte_buffer_ptr (· == cfg.escape_char_) else 0 with hEM
  set CR := if pe then
      ProcessEscapeMask EM s.last_char_is_escape_
        (matchMask data s.byte_buffer_ptr (isDelim cfg))
    else ⟨s.last_char_is_escape_, matchMask data s.byte_buffer_ptr (isDelim cfg)⟩ with hCR
  intro h
  cases hflag : (walkDelims pe cfg data mt EM CHARS_PER_128_BIT_REGISTER CR.delim_mask 0
      { s with last_char_is_escape_ := CR.last_char_is_escape }).2.2 with
  | true =>
    rw [if_pos hflag] at h
    exact absurd h (by simp)
  | false =>
    rw [if_neg (by rw [hflag]; exact Bool.false_ne_true)] at h
    rw [if_neg Bool.false_ne_true]
    show (foldTailEscape pe EM _ _).remaining_len - (CHARS_PER_128_BIT_REGISTER : Int) =
      s.remaining_len - 16
    rw [foldTailEscape_rem,
      walkDelims_not_early_rem pe cfg data mt EM CHARS_PER_128_BIT_REGISTER CR.delim_mask 0
        { s with last_char_is_escape_ := CR.last_char_is_escape } hflag]
    rfl

theorem pd_mt0_not_early (pe : Bool) (cfg : ParserConfig) (data : List Nat)
    (em n l : Nat) (s : ScanState) :
    (processDelimBit pe cfg data 0 em n l s).2.2 = false := by
  cases pe <;>
    by_cases htup : byteAt data (s.byte_buffer_ptr + n) = cfg.tuple_delim_ <;>
      simp [processDelimBit, markEscaped, addColumn_spec, htup]

theorem walkDelims_mt0_not_early (pe : Bool) (cfg : ParserConfig) (data : List Nat)
    (em : Nat) :
    ∀ fuel dm l s, (walkDelims pe cfg data 0 em fuel dm l s).2.2 = false := by
  intro fuel
  induction fuel with
  | zero => exact fun dm l s => rfl
  | succ fuel ih =>
    intro dm l s
    by_cases hdm0 : dm = 0
    · subst hdm0
      simp [walkDelims]
    · have hstep : walkDelims pe cfg data 0 em (fuel+1) dm l s =
          (if (processDelimBit pe cfg data 0 em (lsbIdx dm) l s).2.2 then
             processDelimBit pe cfg data 0 em (lsbIdx dm) l s
           else walkDelims pe cfg data 0 em fuel
             (dm &&& (65535 ^^^ SSE_BITMASK (lsbIdx dm)))
             (processDelimBit pe cfg data 0 em (lsbIdx dm) l s).2.1
             (processDelimBit pe cfg data 0 em (lsbIdx dm) l s).1) := by
        simp [walkDelims, hdm0]
      rw [hstep, if_neg]
      · exact ih _ _ _
      · rw [pd_mt0_not_early pe cfg data em (lsbIdx dm) l s]
        exact Bool.false_ne_true

theorem parseWindow_mt0_not_early (pe : Bool) (cfg : ParserConfig) (data : List Nat)
    (s : ScanState) : (parseWindow pe cfg data 0 s).2 = false := by
  unfold parseWindow
  dsimp only
  set EM := if pe then matchMask data s.byte_buffer_ptr (· == cfg.escape_char_) else 0 with hEM
  set CR := if pe then
      ProcessEscapeMask EM s.last_char_is_escape_
        (matchMask data s.byte_buffer_ptr (isDelim cfg))
    else ⟨s.last_char_is_escape_, matchMask data s.byte_buffer_ptr (isDelim cfg)⟩ with hCR
  rw [if_neg (by
    rw [walkDelims_mt0_not_early pe cfg data EM CHARS_PER_128_BIT_REGISTER CR.delim_mask 0
      { s with last_char_is_escape_ := CR.last_char_is_escape }]
    exact Bool.false_ne_true)]

theorem ParseSseLoop_fuel (pe : Bool) (cfg : ParserConfig) (data : List Nat)
    (mt : Nat) :
    ∀ f₁ f₂ s, s.remaining_len.toNat ≤ f₁ → s.remaining_len.toNat ≤ f₂ →
      ParseSseLoop pe cfg data mt f₁ s = ParseSseLoop pe cfg data mt f₂ s := by
  intro f₁
  induction f₁ with
  | zero =>
    intro f₂ s h1 h2
    have hlt : ¬ ((CHARS_PER_128_BIT_REGISTER : Int) ≤ s.remaining_len) := by
      simp only [CHARS_PER_128_BIT_REGISTER]
      omega
    cases f₂ with
    | zero => rfl
    | succ f₂ => simp [ParseSseLoop, hlt]
  | succ f₁ ih =>
    intro f₂ s h1 h2
    cases f₂ with
    | zero =>
      have hlt : ¬ ((CHARS_PER_128_BIT_REGISTER : Int) ≤ s.remaining_len) := by
        simp only [CHARS_PER_128_BIT_REGISTER]
        omega
      simp [ParseSseLoop, hlt]
    | succ f₂ =>
      by_cases h16 : (CHARS_PER_128_BIT_REGISTER : Int) ≤ s.remaining_len
      · cases hflag : (parseWindow pe cfg data mt s).2 with
        | true => simp [ParseSseLoop, h16, hflag]
        | false =>
          have hL : ParseSseLoop pe cfg data mt (f₁+1) s =
              ParseSseLoop pe cfg data mt f₁ (parseWindow pe cfg data mt s).1 := by
            simp [ParseSseLoop, h16, hflag]
          have hR : ParseSseLoop pe cfg data mt (f₂+1) s =
              ParseSseLoop pe cfg data mt f₂ (parseWindow pe cfg data mt s).1 := by
            simp [ParseSseLoop, h16, hflag]
          rw [hL, hR]
          have hrem := parseWindow_not_early_rem pe cfg data mt s hflag
          have h16' : (16 : Int) ≤ s.remaining_len := by
            simpa [CHARS_PER_128_BIT_REGISTER] using h16
          apply ih
          · rw [hrem]
            omega
          · rw [hrem]
            omega
      · simp [ParseSseLoop, h16]

theorem ParseSse_of_lt (pe : Bool) (cfg : ParserConfig) (data : List Nat)
    (mt : Nat) (s : ScanState) (h : s.remaining_len < 16) :
    ParseSse pe cfg data mt s = s := by
  unfold ParseSse
  have hlt : ¬ ((CHARS_PER_128_BIT_REGISTER : Int) ≤ s.remaining_len) := by
    simp only [CHARS_PER_128_BIT_REGISTER]
    omega
  cases htn : s.remaining_len.toNat with
  | zero => rfl
  | succ k => simp [ParseSseLoop, hlt]

theorem ParseSse_step (pe : Bool) (cfg : ParserConfig) (data : List Nat)
    (mt : Nat) (s : ScanState)
    (h16 : (16 : Int) ≤ s.remaining_len)
    (hflag : (parseWindow pe cfg data mt s).2 = false) :
    ParseSse pe cfg data mt s = ParseSse pe cfg data mt (parseWindow pe cfg data mt s).1 := by
  have h16' : (CHARS_PER_128_BIT_REGISTER : Int) ≤ s.remaining_len := by
    simp only [CHARS_PER_128_BIT_REGISTER]
    omega
  have hrem := parseWindow_not_early_rem pe cfg data mt s hflag
  have htn : s.remaining_len.toNat = (s.remaining_len.toNat - 1) + 1 := by omega
  unfold ParseSse
  rw [htn]
  have hL : ParseSseLoop pe cfg data mt ((s.remaining_len.toNat - 1) + 1) s =
      ParseSseLoop pe cfg data mt (s.remaining_len.toNat - 1)
        (parseWindow pe cfg data mt s).1 := by
    simp [ParseSseLoop, h16', hflag]
  rw [hL]
  apply ParseSseLoop_fuel
  · rw [hrem]
    omega
  · exact le_rfl

theorem parseSse_compose (pe : Bool) (cfg : ParserConfig) (data : List Nat)
    (b : Int) (hb : 0 ≤ b) :
    ∀ s, ParseSse pe cfg data 0 (addRem b (ParseSse pe cfg data 0 s)) =
      ParseSse pe cfg data 0 (addRem b s) := by
  suffices h : ∀ N s, s.remaining_len.toNat ≤ N →
      ParseSse pe cfg data 0 (addRem b (ParseSse pe cfg data 0 s)) =
        ParseSse pe cfg data 0 (addRem b s) from
    fun s => h s.remaining_len.toNat s le_rfl
  intro N
  induction N with
  | zero =>
    intro s hN
    have hlt : s.remaining_len < 16 := by omega
    rw [ParseSse_of_lt pe cfg data 0 s hlt]
  | succ N ih =>
    intro s hN
    by_cases h16 : (16 : Int) ≤ s.remaining_len
    · have hflag := parseWindow_mt0_not_early pe cfg data s
      have hflagA := parseWindow_mt0_not_early pe cfg data (addRem b s)
      have h16A : (16 : Int) ≤ (addRem b s).remaining_len := by
        rw [addRem_remaining]
        omega
      have hrem := parseWindow_not_early_rem pe cfg data 0 s hflag
      have hstep1 := ParseSse_step pe cfg data 0 s h16 hflag
      have hstep2 := ParseSse_step pe cfg data 0 (addRem b s) h16A hflagA
      obtain ⟨hcomm, _⟩ := parseWindow_addRem pe cfg data 0 b s
      rw [hstep1, hstep2, hcomm]
      exact ih (parseWindow pe cfg data 0 s).1 (by rw [hrem]; omega)
    · have hlt : s.remaining_len < 16 := by omega
      rw [ParseSse_of_lt pe cfg data 0 s hlt]

theorem scanChunks_nil (pe : Bool) (cfg : ParserConfig) (data : List Nat)
    (t : ScanState) : scanChunks pe cfg data [] t = t := rfl

theorem scanChunks_cons (pe : Bool) (cfg : ParserConfig) (data : List Nat)
    (c : Int) (cs : List Int) (t : ScanState) :
    scanChunks pe cfg data (c :: cs) t =
      scanChunks pe cfg data cs (ParseSse pe cfg data 0 (addRem c t)) := rfl

/-- C2 (amended): chunking equivalence holds provided no call reaches its
`max_tuples` bound (no mid-window early exit; formalized with the bound set
unreachable): for every logical stream, every initial state, and every way
of presenting the remaining bytes as successive non-negative chunks — with
`column_idx_`, `current_column_has_escape_`, `last_char_is_escape_`, the
field counter, the next-column-start pointer and the cursor all threaded
through unchanged between calls — the repeated bounded calls end in exactly
the state (hence the identical ordered field-location and tuple-end
sequences) of one call given the whole stream at once. -/
theorem chunking_equivalence (pe : Bool) (cfg : ParserConfig) (data : List Nat)
    (chunks : List Int) (s : ScanState) (hc : ∀ c ∈ chunks, 0 ≤ c) :
    scanChunks pe cfg data chunks (ParseSse pe cfg data 0 s) =
      ParseSse pe cfg data 0 (addRem chunks.sum s) := by
  induction chunks generalizing s with
  | nil =>
    rw [scanChunks_nil]
    have h0 : addRem (List.sum ([] : List Int)) s = s := by
      simp [addRem]
    rw [h0]
  | cons c cs ih =>
    rw [scanChunks_cons, parseSse_compose pe cfg data c (hc c (List.mem_cons_self c cs)) s,
      ih (addRem c s) (fun x hx => hc x (List.mem_cons.mpr (Or.inr hx)))]
    have hA : addRem (List.sum cs) (addRem c s) = addRem (List.sum (c :: cs)) s := by
      simp only [addRem, List.sum_cons]
      simp [ScanState.mk.injEq]
      ring
    rw [hA]

/-- Witness for C2's amended theorem at a concrete input: presenting the
20-byte stream `dataChunk` as chunks of 16 and 4 bytes gives the same final
state as one call with all 20 bytes. -/
theorem chunking_equivalence_witness :
    (∀ c ∈ [(16 : Int), 4], (0 : Int) ≤ c) ∧
    scanChunks false cfgEx dataChunk [16, 4]
        (ParseSse false cfgEx dataChunk 0 (initState 0)) =
      ParseSse false cfgEx dataChunk 0 (addRem ([(16 : Int), 4].sum) (initState 0)) := by
  have hc : ∀ c ∈ [(16 : Int), 4], (0 : Int) ≤ c := by
    intro c hcm
    simp only [List.mem_cons, List.not_mem_nil, or_false] at hcm
    rcases hcm with rfl | rfl <;> norm_num
  exact ⟨hc, chunking_equivalence false cfgEx dataChunk [16, 4] (initState 0) hc⟩
